import Mathlib

/-!
Verification development for the branch-naming core of the BranchPilot
Azure DevOps extension: rule resolution (`RulesEngine.resolveRule`),
template rendering (`TemplateRenderer.render`), branch-name sanitization,
truncation and validation (`common/utils`), and unique-name derivation
(`BranchService.resolveUniqueBranchName`).

Strings are embedded as `List Char`; the TypeScript sources operate on
JavaScript strings and the embedding models the relevant JS string and
regular-expression semantics explicitly (ASCII case folding, the concrete
regexes used by the source, leftmost-match replacement).
-/

namespace BranchPilot

/-! ## Character helpers -/

/-- ASCII lower-casing of one character, as `String.prototype.toLowerCase`
behaves on ASCII input (the general config and branch names in scope are
ASCII; non-ASCII characters are left unchanged by this model). -/
def lowerChar (c : Char) : Char :=
  if 65 ≤ c.toNat ∧ c.toNat ≤ 90 then Char.ofNat (c.toNat + 32) else c

/-- `String.prototype.toLowerCase` over the whole string. -/
def mapLower (s : List Char) : List Char := s.map lowerChar

/-- The character class `[a-zA-Z0-9\-_.]` of `sanitizeBranchSegment`'s
replacement regex: characters it keeps. -/
def isAllowedChar (c : Char) : Bool :=
  ('a' ≤ c && c ≤ 'z') || ('A' ≤ c && c ≤ 'Z') || ('0' ≤ c && c ≤ '9') ||
    c = '-' || c = '_' || c = '.'

/-- JS `\s` / `String.prototype.trim` whitespace (ECMAScript WhiteSpace and
LineTerminator code points). -/
def isJsSpace (c : Char) : Bool :=
  c = ' ' || c = '\t' || c = '\n' || c = '\x0b' || c = '\x0c' || c = '\r' ||
  c = ' ' || c = ' ' ||
  (' ' ≤ c && c ≤ ' ') ||
  c = ' ' || c = ' ' || c = ' ' || c = ' ' ||
  c = '　' || c = '﻿'

/-- ECMAScript LineTerminator code points: the characters a JS `.`
(without the `s` flag) can never match. -/
def isLineTerm (c : Char) : Bool :=
  c = '\n' || c = '\r' || c = ' ' || c = ' '

/-! ## List-of-characters utilities -/

/-- `s.split('/')` on a JS string, as a list of segments. -/
def splitOnSlash : List Char → List (List Char)
  | [] => [[]]
  | c :: rest =>
    if c = '/' then [] :: splitOnSlash rest
    else
      match splitOnSlash rest with
      | [] => [[c]]
      | t :: ts => (c :: t) :: ts

/-- `segments.join('/')`. -/
def joinSlash : List (List Char) → List Char
  | [] => []
  | [t] => t
  | t :: ts => t ++ '/' :: joinSlash ts

/-- Strip a maximal run of characters satisfying `p` from both ends
(the effect of a global regex `^[…]+|[…]+$` replacement with `''`). -/
def stripClass (p : Char → Bool) (s : List Char) : List Char :=
  ((s.dropWhile p).reverse.dropWhile p).reverse

/-- `String.prototype.trim`. -/
def jsTrim (s : List Char) : List Char := stripClass isJsSpace s

/-- The `replace` with regex `-+$` and replacement `''`: remove the
trailing run of hyphens. -/
def stripTrailingHyphens (s : List Char) : List Char :=
  (s.reverse.dropWhile (fun c => c = '-')).reverse

/-! ## Template renderer (`src/rules/TemplateRenderer.ts`) -/

/-- `WorkItemContext` (`common/types.ts`), restricted to the fields the
renderer reads; `id` is a positive integer per the data model. -/
structure WorkItemContext where
  id : Nat
  title : List Char
  type : List Char
  state : List Char
  assignedTo : Option (List Char)
deriving DecidableEq

/-- `TemplateContext` (`TemplateRenderer.ts`). The source field `prefix`
is named `pfx` here (`prefix` is reserved in Lean). -/
structure TemplateContext where
  workItem : WorkItemContext
  pfx : List Char
deriving DecidableEq

/-- `TemplateRenderer.resolveToken`: the fixed token table; unknown tokens
resolve to the empty string. `String(workItem.id)` is decimal `Nat.repr`. -/
def resolveToken (ctx : TemplateContext) (token : List Char) : List Char :=
  if token = "wi.id".data then (Nat.repr ctx.workItem.id).data
  else if token = "wi.title".data then ctx.workItem.title
  else if token = "wi.type".data then ctx.workItem.type
  else if token = "wi.state".data then ctx.workItem.state
  else if token = "wi.assignedTo".data then ctx.workItem.assignedTo.getD []
  else if token = "prefix".data then ctx.pfx
  else []

/-- Scan for the first `\x7d` (closing brace); return the characters before
it and the rest after it.  This is how the JS regex `\x7b([^\x7d]+)\x7d`
delimits a placeholder: `[^\x7d]+` is greedy and stops at the first
closing brace. -/
def splitAtRBrace : List Char → Option (List Char × List Char)
  | [] => none
  | c :: rest =>
    if c = '}' then some ([], rest)
    else (splitAtRBrace rest).map (fun p => (c :: p.1, p.2))

/-- One pass of `template.replace(/\x7b([^\x7d]+)\x7d/g, …)` with fuel
(the fuel only serves structural recursion; `render` supplies enough).
An opening brace with no closing brace, or an empty `\x7b\x7d`, is left
literal, exactly as the regex leaves it unmatched. -/
def renderF (ctx : TemplateContext) : Nat → List Char → List Char
  | 0, _ => []
  | _ + 1, [] => []
  | fuel + 1, c :: rest =>
    if c = '{' then
      match splitAtRBrace rest with
      | some (tok, rest') =>
        if tok.isEmpty then '{' :: renderF ctx fuel rest
        else resolveToken ctx (jsTrim tok) ++ renderF ctx fuel rest'
      | none => '{' :: renderF ctx fuel rest
    else c :: renderF ctx fuel rest

/-- `TemplateRenderer.render`. -/
def render (ctx : TemplateContext) (template : List Char) : List Char :=
  renderF ctx (template.length + 1) template

/-! ## Sanitization (`common/utils.ts`) -/

/-- `GeneralConfig` (`common/types.ts`).  `nonAlnumReplacement` has TS type
`string`; the configuration contract (data model §3) restricts it to a
single character or the empty string, which the embedding represents as
`Option Char` (`none` = empty replacement). `maxLength` is a non-negative
integer. -/
structure GeneralConfig where
  lowercase : Bool
  nonAlnumReplacement : Option Char
  maxLength : Nat
  allowManualNameOverride : Bool
  language : List Char
deriving DecidableEq

/-- Membership in the strip class `[<replacement>.]` used by
`sanitizeBranchSegment`'s final regex: the replacement character (if any)
or a literal dot. -/
def inStripClass (repl : Option Char) (c : Char) : Bool :=
  c = '.' || (match repl with | some r => c = r | none => false)

/-- `value.replace(/[^a-zA-Z0-9\-_.]/g, replacement)`: keep allowed
characters, substitute the replacement string (here: zero or one
character) for every other character. -/
def replaceDisallowed (repl : Option Char) : List Char → List Char
  | [] => []
  | c :: cs =>
    (if isAllowedChar c then [c] else repl.toList) ++ replaceDisallowed repl cs

/-- `result.replace(new RegExp(escaped + '+', 'g'), replacement)` for a
one-character replacement: collapse each maximal run of the replacement
character to a single occurrence. -/
def collapseRuns (c : Char) : List Char → List Char
  | [] => []
  | [x] => [x]
  | x :: y :: xs =>
    if x = c && y = c then collapseRuns c (y :: xs)
    else x :: collapseRuns c (y :: xs)

/-- `sanitizeBranchSegment` (`common/utils.ts`): replace disallowed
characters, collapse replacement runs (only when the replacement is
non-empty), strip replacement characters and dots from both ends. -/
def sanitizeBranchSegment (repl : Option Char) (s : List Char) : List Char :=
  let r1 := replaceDisallowed repl s
  let r2 := match repl with | some c => collapseRuns c r1 | none => r1
  stripClass (inStripClass repl) r2

/-- The segment-sanitize / join / lowercase part of `sanitizeBranchName`,
before the truncation step. -/
def sanitizeCore (cfg : GeneralConfig) (name : List Char) : List Char :=
  let sanitized := (splitOnSlash name).map (sanitizeBranchSegment cfg.nonAlnumReplacement)
  let joined := joinSlash (sanitized.filter (fun s => decide (0 < s.length)))
  if cfg.lowercase then mapLower joined else joined

/-- The attempt `^([^/]*\/)?(\d+-)(.*)$` makes with a fixed leading part
`pre` (either empty, or everything up to and including the first slash):
a non-empty run of digits, a hyphen, then `(.*)$` — which fails if the
remainder contains a LineTerminator, since JS `.` cannot match those. -/
def tryIdFrom (pre rest : List Char) : Option (List Char × List Char × List Char) :=
  let d := rest.takeWhile Char.isDigit
  if d.isEmpty then none
  else
    match rest.drop d.length with
    | c :: title =>
      if c = '-' && !title.any isLineTerm then some (pre, d ++ ['-'], title)
      else none
    | [] => none

/-- `name.match(/^([^/]*\/)?(\d+-)(.*)$/)`: the optional group is greedy,
so the attempt with the leading segment (up to the first slash) is made
first, then the attempt without it. -/
def idSplit (name : List Char) : Option (List Char × List Char × List Char) :=
  match name.dropWhile (fun c => !(c = '/')) with
  | [] => tryIdFrom [] name
  | _ :: after =>
    match tryIdFrom ((name.takeWhile (fun c => !(c = '/'))) ++ ['/']) after with
    | some r => some r
    | none => tryIdFrom [] name

/-- `truncateBranchName` (`common/utils.ts`). -/
def truncateBranchName (name : List Char) (maxLength : Nat) : List Char :=
  if name.length ≤ maxLength then name
  else
    match idSplit name with
    | some (pre, idp, title) =>
      let reserved := pre.length + idp.length
      if reserved < maxLength then
        pre ++ idp ++ stripTrailingHyphens (title.take (maxLength - reserved))
      else name.take maxLength
    | none => stripTrailingHyphens (name.take maxLength)

/-- `sanitizeBranchName` (`common/utils.ts`). -/
def sanitizeBranchName (cfg : GeneralConfig) (name : List Char) : List Char :=
  let result := sanitizeCore cfg name
  if cfg.maxLength < result.length then truncateBranchName result cfg.maxLength
  else result

/-! ## Validation (`common/utils.ts`) -/

/-- `HARD_MAX_LENGTH` (`common/constants.ts`). -/
def HARD_MAX_LENGTH : Nat := 250

/-- `ValidationResult` (`common/types.ts`). -/
structure ValidationResult where
  valid : Bool
  errors : List (List Char)
  warnings : List (List Char)
deriving DecidableEq

/-- The warning text `Branch name is ${…} characters (max: ${…}).` -/
def lengthWarning (len maxLength : Nat) : List Char :=
  "Branch name is ".data ++ (Nat.repr len).data ++
    " characters (max: ".data ++ (Nat.repr maxLength).data ++ ").".data

/-- The error text for the hard-ceiling check (with `HARD_MAX_LENGTH`
interpolated). -/
def hardLimitError : List Char :=
  "Branch name exceeds the hard limit of ".data ++
    (Nat.repr HARD_MAX_LENGTH).data ++ " characters.".data

/-- `validateBranchName` (`common/utils.ts`): the pushes onto `errors`
and `warnings` appear here as guarded singletons concatenated in source
order; `valid` is `errors.length === 0`. -/
def validateBranchName (name : List Char) (maxLength : Nat) : ValidationResult :=
  let errors :=
    (if name.isEmpty || (jsTrim name).isEmpty then ["Branch name cannot be empty.".data] else []) ++
    (if HARD_MAX_LENGTH < name.length then [hardLimitError] else []) ++
    (if name.any isJsSpace then ["Branch name cannot contain spaces.".data] else []) ++
    (if decide (('.' :: '.' :: []) <:+: name) then ["Branch name cannot contain \"..\".".data] else []) ++
    (if name.head? = some '-' || name.getLast? = some '-' then
      ["Branch name cannot start or end with a hyphen.".data] else []) ++
    (if name.any (fun c => c = '~' || c = '^' || c = ':' || c = '?' || c = '*' || c = '[' || c = '\\') then
      ["Branch name contains invalid characters.".data] else []) ++
    (if ".lock".data.isSuffixOf name then ["Branch name cannot end with \".lock\".".data] else [])
  let warnings :=
    if maxLength < name.length then [lengthWarning name.length maxLength] else []
  { valid := errors.isEmpty, errors := errors, warnings := warnings }

/-! ## Glob matching (the `minimatch` dependency of `RulesEngine.matchesBranch`)

`matchesBranch` calls `minimatch(branch, pattern, { nocase: true,
matchBase: false })`.  `minimatch` is a third-party library; the model
below follows its documented semantics for patterns built from literal
characters, `?` and a single `*` (the pattern forms the configuration
uses), with the library's defaults: `nocase` compares case-insensitively,
patterns starting with `#` are comments and match nothing, leading `!`
negates, an empty pattern matches only the empty string, pattern and
input are split on `/` and matched segment by segment (so `*` never
matches across a `/`), a bare `*` segment requires a non-empty segment
not starting with `.`, and a magic segment never matches a segment
starting with `.` unless the pattern segment itself starts with `.`.
Braces, extended globs, character classes, `**` and backslash escapes are
outside the modelled pattern grammar. -/

/-- Does a pattern segment contain glob magic? -/
def hasMagic (pat : List Char) : Bool := pat.any (fun c => c = '*' || c = '?')

/-- Segment-level regex matching for magic segments (case-insensitive:
the `i` flag `nocase` sets).  `*` matches any run of non-`/` characters
(segments contain no `/`), `?` any single character.  Fueled for
structural recursion; `segMatch` supplies sufficient fuel. -/
def regMatchF : Nat → List Char → List Char → Bool
  | 0, _, _ => false
  | _ + 1, [], inp => inp.isEmpty
  | fuel + 1, p :: ps, inp =>
    if p = '*' then
      regMatchF fuel ps inp ||
        (match inp with
         | [] => false
         | _ :: cs => regMatchF fuel (p :: ps) cs)
    else
      match inp with
      | [] => false
      | c :: cs => (p = '?' || lowerChar p = lowerChar c) && regMatchF fuel ps cs

/-- Match one pattern segment against one input segment. -/
def segMatch (pat inp : List Char) : Bool :=
  if pat = ['*'] then !inp.isEmpty && !(inp.head? = some '.')
  else if hasMagic pat then
    !(inp.head? = some '.' && !(pat.head? = some '.')) &&
      regMatchF (pat.length + inp.length + 1) pat inp
  else mapLower pat = mapLower inp

/-- `minimatch.matchOne`: walk pattern segments and input segments in
lock-step; a leftover single empty input segment (a trailing slash) is
accepted when the pattern is exhausted. -/
def matchSegs : List (List Char) → List (List Char) → Bool
  | [], [] => true
  | [], [f] => f.isEmpty
  | [], _ :: _ :: _ => false
  | _ :: _, [] => false
  | p :: ps, f :: fs => segMatch p f && matchSegs ps fs

/-- Strip leading `!` characters, toggling the negate flag. -/
def stripNegate : List Char → Bool → List Char × Bool
  | [], neg => ([], neg)
  | c :: cs, neg => if c = '!' then stripNegate cs (!neg) else (c :: cs, neg)

/-- The model of `minimatch(input, pattern, { nocase: true, matchBase:
false })`. -/
def minimatchFn (pattern input : List Char) : Bool :=
  if pattern.head? = some '#' then false
  else if pattern.isEmpty then input.isEmpty
  else
    let pr := stripNegate pattern false
    let res :=
      if pr.1.isEmpty then input.isEmpty
      else matchSegs (splitOnSlash pr.1) (splitOnSlash input)
    if pr.2 then !res else res

/-! ## Rules engine (`src/rules/RulesEngine.ts`) -/

/-- A hook for JavaScript `new RegExp(pattern).test(branch)`: `none`
models a pattern whose compilation throws (malformed regex), `some b` a
successful test.  The engine's theorems hold for every such tester. -/
def RegexTester : Type := List Char → List Char → Option Bool

/-- `WorkItemStateConfig` (`common/types.ts`). -/
structure WorkItemStateConfig where
  enabled : Bool
  state : List Char
deriving DecidableEq

/-- `'glob' | 'regex'`. -/
inductive MatchType where
  | glob
  | regex
deriving DecidableEq

/-- `SourceBranchRule` (`common/types.ts`).  The source field `match` is
named `matchPat` (`match` is a Lean keyword) and `prefix` is named `pfx`. -/
structure SourceBranchRule where
  name : List Char
  matchType : MatchType
  matchPat : List Char
  pfx : List Char
  template : List Char
  workItemState : Option WorkItemStateConfig
deriving DecidableEq

/-- `WorkItemTypeRule` (`common/types.ts`); `prefix` (optional there) is
`pfx`. -/
structure WorkItemTypeRule where
  workItemType : List Char
  pfx : Option (List Char)
  template : List Char
  workItemState : Option WorkItemStateConfig
deriving DecidableEq

/-- `DefaultsConfig` (`common/types.ts`). -/
structure DefaultsConfig where
  template : List Char
  workItemState : Option WorkItemStateConfig
deriving DecidableEq

/-- `ExtensionConfig` (`common/types.ts`), restricted to the fields the
rules engine reads (`repoOverrides` is consumed by UI glue only). -/
structure ExtensionConfig where
  schemaVersion : Nat
  general : GeneralConfig
  defaults : DefaultsConfig
  rulesBySourceBranch : List SourceBranchRule
  rulesByWorkItemType : List WorkItemTypeRule
deriving DecidableEq

/-- `ResolvedRule` (`common/types.ts`); `prefix` is `pfx`. -/
structure ResolvedRule where
  template : List Char
  pfx : List Char
  workItemState : Option WorkItemStateConfig
  matchedRuleName : List Char
deriving DecidableEq

/-- `RulesEngine.matchesBranch`: glob patterns via `minimatch` with
`nocase`, regex patterns via `new RegExp(pattern).test(branch)`; the
`try`/`catch` maps a compilation failure (`rt … = none`) to `false`. -/
def matchesBranch (rt : RegexTester) (branch : List Char)
    (matchType : MatchType) (pattern : List Char) : Bool :=
  match matchType with
  | .glob => minimatchFn pattern branch
  | .regex => match rt pattern branch with | some b => b | none => false

/-- The first `for` loop of `resolveRule` (source-branch tier, early
return on the first matching rule). -/
def findSourceRule (rt : RegexTester) (sourceBranch : List Char) :
    List SourceBranchRule → Option ResolvedRule
  | [] => none
  | r :: rs =>
    if matchesBranch rt sourceBranch r.matchType r.matchPat then
      some { template := r.template, pfx := r.pfx,
             workItemState := r.workItemState, matchedRuleName := r.name }
    else findSourceRule rt sourceBranch rs

/-- The second `for` loop of `resolveRule` (work-item-type tier,
case-insensitive equality, early return). -/
def findTypeRule (workItemType : List Char) :
    List WorkItemTypeRule → Option ResolvedRule
  | [] => none
  | r :: rs =>
    if mapLower r.workItemType = mapLower workItemType then
      some { template := r.template, pfx := r.pfx.getD [],
             workItemState := r.workItemState,
             matchedRuleName := "WI type: ".data ++ r.workItemType }
    else findTypeRule workItemType rs

/-- `RulesEngine.resolveRule`. -/
def resolveRule (rt : RegexTester) (cfg : ExtensionConfig)
    (sourceBranch workItemType : List Char) : ResolvedRule :=
  match findSourceRule rt sourceBranch cfg.rulesBySourceBranch with
  | some r => r
  | none =>
    match findTypeRule workItemType cfg.rulesByWorkItemType with
    | some r => r
    | none =>
      { template := cfg.defaults.template, pfx := [],
        workItemState := cfg.defaults.workItemState,
        matchedRuleName := "default".data }

/-- `RulesEngine.computeBranchName`. -/
def computeBranchName (rt : RegexTester) (cfg : ExtensionConfig)
    (workItem : WorkItemContext) (sourceBranch : List Char) : List Char :=
  let rule := resolveRule rt cfg sourceBranch workItem.type
  sanitizeBranchName cfg.general
    (render { workItem := workItem, pfx := rule.pfx } rule.template)

/-! ## Unique-name derivation (`BranchService.resolveUniqueBranchName`)

The async existence check is embedded as a pure predicate, and
`Date.now()` as an explicit `now` argument. -/

/-- Decimal value of a digit string (`parseInt(d, 10)` for digit-only
input; the embedding is exact where JS is limited to 2^53). -/
def digitsToNat (d : List Char) : Nat :=
  d.foldl (fun a c => a * 10 + (c.toNat - 48)) 0

/-- `branchName.match(/^(.+)-(\d+)$/)`: succeeds when the name ends in a
hyphen followed by a non-empty digit run, with a non-empty base before
the hyphen; greedy `(.+)` puts the maximal digit suffix in the second
group.  Because a JS `.` (without the `s` flag) cannot match an
ECMAScript LineTerminator, the match also fails whenever the base — the
part `(.+)` has to cover — contains one.  Returns the base and the
numeric suffix. -/
def stripNumSuffix (name : List Char) : Option (List Char × Nat) :=
  let dRev := name.reverse.takeWhile Char.isDigit
  if dRev.isEmpty then none
  else
    match name.reverse.drop dRev.length with
    | c :: baseRev =>
      if c = '-' && !baseRev.isEmpty && !baseRev.any isLineTerm then
        some (baseRev.reverse, digitsToNat dRev.reverse)
      else none
    | [] => none

/-- The `while (counter <= 100)` probe loop of
`resolveUniqueBranchName`; on exhaustion, the `Date.now()` fallback.
Structured on a fuel argument for structural recursion; 101 units of
fuel are exactly the most iterations the `counter <= 100` guard allows
(from any starting counter), so with the 101 supplied by `probeLoop`
the fuel-exhaustion branch coincides with the guard-failure branch. -/
def probeLoopF (ex : List Char → Bool) (now : Nat) (base : List Char) :
    Nat → Nat → List Char
  | 0, _ => base ++ '-' :: (Nat.repr now).data
  | fuel + 1, counter =>
    if counter ≤ 100 then
      let cand := base ++ '-' :: (Nat.repr counter).data
      if ex cand then probeLoopF ex now base fuel (counter + 1) else cand
    else base ++ '-' :: (Nat.repr now).data

/-- The probe loop entered with a given starting counter. -/
def probeLoop (ex : List Char → Bool) (now : Nat) (base : List Char)
    (counter : Nat) : List Char :=
  probeLoopF ex now base 101 counter

/-- `BranchService.resolveUniqueBranchName`. -/
def resolveUniqueBranchName (ex : List Char → Bool) (now : Nat)
    (branchName : List Char) : List Char :=
  if !ex branchName then branchName
  else
    match stripNumSuffix branchName with
    | some (base, n) => probeLoop ex now base (n + 1)
    | none => probeLoop ex now branchName 2

/-! ## Character-level lemmas -/

theorem char_eq_iff_toNat {a b : Char} : a = b ↔ a.toNat = b.toNat := by
  constructor
  · intro h; rw [h]
  · intro h; apply Char.ext; exact UInt32.toNat.inj h

theorem char_le_iff {a b : Char} : a ≤ b ↔ a.toNat ≤ b.toNat := Iff.rfl

theorem toNat_ofNat_valid {n : Nat} (h : n < 55296) : (Char.ofNat n).toNat = n := by
  have hv : n.isValidChar := Or.inl h
  simp [Char.ofNat, hv, Char.ofNatAux, Char.toNat, UInt32.toNat]

theorem lowerChar_of_not_upper {c : Char} (h : ¬(65 ≤ c.toNat ∧ c.toNat ≤ 90)) :
    lowerChar c = c := by simp [lowerChar, h]

theorem toNat_lowerChar_of_upper {c : Char} (h : 65 ≤ c.toNat ∧ c.toNat ≤ 90) :
    (lowerChar c).toNat = c.toNat + 32 := by
  rw [lowerChar, if_pos h]
  exact toNat_ofNat_valid (by omega)

theorem lowerChar_idem (c : Char) : lowerChar (lowerChar c) = lowerChar c := by
  by_cases h : 65 ≤ c.toNat ∧ c.toNat ≤ 90
  · have h2 := toNat_lowerChar_of_upper h
    exact lowerChar_of_not_upper (by omega)
  · rw [lowerChar_of_not_upper h, lowerChar_of_not_upper h]

/-- No character case-folds onto a character that is not a lowercase ASCII
letter, other than that character itself. -/
theorem eq_of_lowerChar_eq {c x : Char} (hc : ¬(97 ≤ c.toNat ∧ c.toNat ≤ 122))
    (h : lowerChar x = c) : x = c := by
  by_cases hx : 65 ≤ x.toNat ∧ x.toNat ≤ 90
  · exfalso
    have h2 := toNat_lowerChar_of_upper hx
    rw [h] at h2
    omega
  · rwa [lowerChar_of_not_upper hx] at h

theorem isAllowedChar_iff {c : Char} : isAllowedChar c = true ↔
    ((97 ≤ c.toNat ∧ c.toNat ≤ 122) ∨ (65 ≤ c.toNat ∧ c.toNat ≤ 90) ∨
     (48 ≤ c.toNat ∧ c.toNat ≤ 57) ∨ c.toNat = 45 ∨ c.toNat = 95 ∨ c.toNat = 46) := by
  simp only [isAllowedChar, Bool.or_eq_true, Bool.and_eq_true, decide_eq_true_eq,
    char_le_iff, char_eq_iff_toNat]
  simp only [show 'a'.toNat = 97 from rfl, show 'z'.toNat = 122 from rfl,
    show 'A'.toNat = 65 from rfl, show 'Z'.toNat = 90 from rfl,
    show '0'.toNat = 48 from rfl, show '9'.toNat = 57 from rfl,
    show '-'.toNat = 45 from rfl, show '_'.toNat = 95 from rfl,
    show '.'.toNat = 46 from rfl]
  omega

theorem isAllowedChar_lowerChar {c : Char} (h : isAllowedChar c = true) :
    isAllowedChar (lowerChar c) = true := by
  rw [isAllowedChar_iff] at h ⊢
  by_cases hu : 65 ≤ c.toNat ∧ c.toNat ≤ 90
  · rw [toNat_lowerChar_of_upper hu]; omega
  · rw [lowerChar_of_not_upper hu]; exact h

theorem lowerChar_of_not_allowed {c : Char} (h : ¬ isAllowedChar c = true) :
    lowerChar c = c := by
  apply lowerChar_of_not_upper
  intro hu
  exact h (isAllowedChar_iff.mpr (Or.inr (Or.inl hu)))

theorem mapLower_idem (s : List Char) : mapLower (mapLower s) = mapLower s := by
  simp [mapLower, Function.comp, lowerChar_idem]

theorem length_mapLower (s : List Char) : (mapLower s).length = s.length := by
  simp [mapLower]

/-! ## Probe-loop lemmas -/

theorem probeLoopF_irrel (ex : List Char → Bool) (now : Nat) (base : List Char) :
    ∀ fuel₁ fuel₂ counter, 101 - counter ≤ fuel₁ → 101 - counter ≤ fuel₂ →
      probeLoopF ex now base fuel₁ counter = probeLoopF ex now base fuel₂ counter := by
  intro fuel₁
  induction fuel₁ with
  | zero =>
    intro fuel₂ counter h1 h2
    have hc : ¬ counter ≤ 100 := by omega
    cases fuel₂ with
    | zero => rfl
    | succ f => rw [probeLoopF, probeLoopF, if_neg hc]
  | succ f ih =>
    intro fuel₂ counter h1 h2
    cases fuel₂ with
    | zero =>
      have hc : ¬ counter ≤ 100 := by omega
      rw [probeLoopF, probeLoopF, if_neg hc]
    | succ g =>
      rw [probeLoopF, probeLoopF]
      by_cases hc : counter ≤ 100
      · rw [if_pos hc, if_pos hc]
        by_cases he : ex (base ++ '-' :: (Nat.repr counter).data) = true
        · simp only [he, if_true]
          exact ih g (counter + 1) (by omega) (by omega)
        · simp only [Bool.not_eq_true] at he
          simp [he]
      · rw [if_neg hc, if_neg hc]

theorem probeLoop_step {ex : List Char → Bool} {now : Nat} {base : List Char}
    {counter : Nat} (hc : counter ≤ 100)
    (he : ex (base ++ '-' :: (Nat.repr counter).data) = true) :
    probeLoop ex now base counter = probeLoop ex now base (counter + 1) := by
  rw [probeLoop, probeLoop, show (101 : Nat) = 100 + 1 from rfl, probeLoopF,
    if_pos hc]
  simp only [he, if_true]
  exact probeLoopF_irrel ex now base 100 (100 + 1) (counter + 1) (by omega) (by omega)

theorem probeLoop_found {ex : List Char → Bool} {now : Nat} {base : List Char}
    {counter : Nat} (hc : counter ≤ 100)
    (he : ex (base ++ '-' :: (Nat.repr counter).data) = false) :
    probeLoop ex now base counter = base ++ '-' :: (Nat.repr counter).data := by
  rw [probeLoop, show (101 : Nat) = 100 + 1 from rfl, probeLoopF, if_pos hc]
  simp [he]

theorem probeLoop_exhausted {ex : List Char → Bool} {now : Nat} {base : List Char}
    {counter : Nat} (hc : ¬ counter ≤ 100) :
    probeLoop ex now base counter = base ++ '-' :: (Nat.repr now).data := by
  rw [probeLoop, show (101 : Nat) = 100 + 1 from rfl, probeLoopF, if_neg hc]

/-- A list never equals itself extended by a nonempty suffix. -/
theorem append_cons_ne_self (l : List Char) (c : Char) (r : List Char) :
    l ++ c :: r ≠ l := by
  intro h
  have := congrArg List.length h
  simp at this

theorem takeWhile_all_append {p : Char → Bool} {l : List Char} (x : Char)
    (r : List Char) (h : ∀ c ∈ l, p c = true) (hx : p x = false) :
    (l ++ x :: r).takeWhile p = l := by
  induction l with
  | nil => simp [List.takeWhile, hx]
  | cons a as ih =>
    have ha : p a = true := h a (by simp)
    simp only [List.cons_append, List.takeWhile, ha, List.append_eq]
    rw [ih (fun c hc => h c (by simp [hc]))]

/-- `stripNumSuffix` on a name of the shape `base ++ "-" ++ digits` whose
base is free of LineTerminators. -/
theorem stripNumSuffix_eq {base d : List Char} (hbase : base ≠ [])
    (hd : d ≠ []) (hdig : ∀ c ∈ d, c.isDigit = true)
    (hlt : base.any isLineTerm = false) :
    stripNumSuffix (base ++ '-' :: d) = some (base, digitsToNat d) := by
  have hrev : (base ++ '-' :: d).reverse = d.reverse ++ '-' :: base.reverse := by
    simp
  have htake : (base ++ '-' :: d).reverse.takeWhile Char.isDigit = d.reverse := by
    rw [hrev]
    exact takeWhile_all_append _ _ (fun c hc => hdig c (by simpa using hc)) rfl
  have hdrop : (base ++ '-' :: d).reverse.drop d.reverse.length = '-' :: base.reverse := by
    rw [hrev, List.drop_left]
  rw [stripNumSuffix, htake]
  have hne : d.reverse.isEmpty = false := by
    cases d with
    | nil => exact absurd rfl hd
    | cons a as => simp
  rw [if_neg (by simp [hne]), hdrop]
  have hbne : base.reverse.isEmpty = false := by
    cases base with
    | nil => exact absurd rfl hbase
    | cons a as => simp
  have hltr : base.reverse.any isLineTerm = false := by
    rw [List.any_reverse]
    exact hlt
  simp [hbne, hltr]

/-- C9: `resolveUniqueBranchName` on a desired name with no trailing
numeric suffix: a free name is returned unchanged; when the existence
predicate holds exactly for the name, `name-2` and `name-3`, probing
starts at 2 over the whole name as base and yields `name-4`. -/
theorem resolveUnique_no_suffix_spec (ex : List Char → Bool) (now : Nat)
    (desired : List Char) (hns : stripNumSuffix desired = none) :
    (ex desired = false → resolveUniqueBranchName ex now desired = desired) ∧
    ((∀ s, ex s = true ↔
        (s = desired ∨ s = desired ++ "-2".data ∨ s = desired ++ "-3".data)) →
      resolveUniqueBranchName ex now desired = desired ++ "-4".data) := by
  constructor
  · intro h
    simp [resolveUniqueBranchName, h]
  · intro hex
    have hd : ex desired = true := (hex desired).mpr (Or.inl rfl)
    have h2 : ex (desired ++ '-' :: (Nat.repr 2).data) = true :=
      (hex _).mpr (Or.inr (Or.inl rfl))
    have h3 : ex (desired ++ '-' :: (Nat.repr 3).data) = true :=
      (hex _).mpr (Or.inr (Or.inr rfl))
    have h4 : ex (desired ++ '-' :: (Nat.repr 4).data) = false := by
      cases hc : ex (desired ++ '-' :: (Nat.repr 4).data) with
      | false => rfl
      | true =>
        exfalso
        rcases (hex _).mp hc with h | h | h
        · exact append_cons_ne_self desired _ _ h
        · exact absurd (List.append_cancel_left h) (by decide)
        · exact absurd (List.append_cancel_left h) (by decide)
    rw [resolveUniqueBranchName]
    simp only [hd, hns]
    rw [if_neg (by simp)]
    rw [probeLoop_step (by omega) h2, probeLoop_step (by omega) h3,
      probeLoop_found (by omega) h4]
    rfl

/-- C9 witness: for `release/1-foo` (no trailing numeric suffix), an
always-false predicate returns it unchanged, and a predicate holding
exactly on it, `…-2` and `…-3` yields `…-4`. -/
theorem resolveUnique_no_suffix_witness :
    resolveUniqueBranchName (fun _ => false) 0 "release/1-foo".data
      = "release/1-foo".data ∧
    resolveUniqueBranchName
      (fun s => decide (s = "release/1-foo".data ∨
        s = "release/1-foo-2".data ∨ s = "release/1-foo-3".data)) 0
      "release/1-foo".data = "release/1-foo-4".data := by
  constructor
  · exact (resolveUnique_no_suffix_spec (fun _ => false) 0 "release/1-foo".data
      (by decide)).1 rfl
  · have h := (resolveUnique_no_suffix_spec
      (fun s => decide (s = "release/1-foo".data ∨
        s = "release/1-foo-2".data ∨ s = "release/1-foo-3".data)) 0
      "release/1-foo".data (by decide)).2 (fun s => by simp)
    exact h.trans (by decide)

/-- **C10** (corrected): a desired name ending in `-N` with `N ≥ 100`
that already exists is immediately renamed to `base-<now>` (the
`Date.now()` fallback): the probe loop starts at `N + 1 > 100`, so its
guard fails before a single candidate is tested — even though
`base-(N+1)` may be free.  This holds only when the base is free of
ECMAScript LineTerminators: otherwise the `(.+)` of `/^(.+)-(\d+)$/`
cannot cover the base, the match is null, and the source probes from 2
over the whole name (see the counterexample below). -/
theorem resolveUnique_bigSuffix_spec (ex : List Char → Bool) (now : Nat)
    (base d : List Char) (hbase : base ≠ []) (hd : d ≠ [])
    (hdig : ∀ c ∈ d, c.isDigit = true) (hlt : base.any isLineTerm = false)
    (hN : 100 ≤ digitsToNat d)
    (hex : ex (base ++ '-' :: d) = true) :
    resolveUniqueBranchName ex now (base ++ '-' :: d)
      = base ++ '-' :: (Nat.repr now).data := by
  rw [resolveUniqueBranchName]
  simp only [hex]
  rw [if_neg (by simp), stripNumSuffix_eq hbase hd hdig hlt]
  exact probeLoop_exhausted (by omega)

/-- C10 witness: `feature/7-x-100` exists (and nothing else does, so
`feature/7-x-101` is free), yet the result is the timestamp fallback
`feature/7-x-12345` for `now = 12345`. -/
theorem resolveUnique_bigSuffix_witness :
    resolveUniqueBranchName (fun s => decide (s = "feature/7-x-100".data)) 12345
      "feature/7-x-100".data = "feature/7-x-12345".data := by
  have h := resolveUnique_bigSuffix_spec
    (fun s => decide (s = "feature/7-x-100".data)) 12345
    "feature/7-x".data "100".data (by decide) (by decide)
    (by decide) (by decide) (by decide) (by decide)
  exact (by decide : "feature/7-x-100".data = "feature/7-x".data ++ '-' :: "100".data) ▸ h.trans (by decide)

/-- Counterexample to C10 as first read, with no restriction on the base:
for the name `a<LF>b-100`, which textually ends in `-100`, the JS regex
`^(.+)-(\d+)$` fails to match (its `.` cannot cross the LineTerminator in
the base), so `resolveUniqueBranchName` treats the whole name as the base,
probes from 2, and returns `a<LF>b-100-2` — one candidate is tested and
the `Date.now()` fallback `a<LF>b-12345` is not produced. -/
theorem resolveUnique_bigSuffix_counterexample :
    resolveUniqueBranchName
        (fun s => decide (s = 'a' :: '\n' :: "b-100".data)) 12345
        ('a' :: '\n' :: "b-100".data) = 'a' :: '\n' :: "b-100-2".data ∧
    resolveUniqueBranchName
        (fun s => decide (s = 'a' :: '\n' :: "b-100".data)) 12345
        ('a' :: '\n' :: "b-100".data) ≠ 'a' :: '\n' :: "b-12345".data := by
  refine ⟨by decide, by decide⟩

/-! ## Rules-engine lemmas -/

theorem findSourceRule_eq_find (rt : RegexTester) (sb : List Char)
    (rs : List SourceBranchRule) :
    findSourceRule rt sb rs =
      (rs.find? (fun ru => matchesBranch rt sb ru.matchType ru.matchPat)).map
        (fun r => { template := r.template, pfx := r.pfx,
                    workItemState := r.workItemState, matchedRuleName := r.name }) := by
  induction rs with
  | nil => rfl
  | cons r rs ih =>
    by_cases h : matchesBranch rt sb r.matchType r.matchPat
    · simp [findSourceRule, List.find?, h]
    · simp only [Bool.not_eq_true] at h
      simp [findSourceRule, List.find?, h, ih]

theorem findTypeRule_eq_find (wt : List Char) (rs : List WorkItemTypeRule) :
    findTypeRule wt rs =
      (rs.find? (fun ru => decide (mapLower ru.workItemType = mapLower wt))).map
        (fun r => { template := r.template, pfx := r.pfx.getD [],
                    workItemState := r.workItemState,
                    matchedRuleName := "WI type: ".data ++ r.workItemType }) := by
  induction rs with
  | nil => rfl
  | cons r rs ih =>
    by_cases h : mapLower r.workItemType = mapLower wt
    · simp [findTypeRule, List.find?, h]
    · simp [findTypeRule, List.find?, h, ih]

/-- C1: `resolveRule` returns the first source-branch rule (in list
order) whose pattern matches; the work-item-type tier is consulted only
when none does, and there the first rule whose `workItemType` equals the
request's type case-insensitively wins. -/
theorem resolveRule_precedence_spec (rt : RegexTester) (cfg : ExtensionConfig)
    (sourceBranch workItemType : List Char) :
    (∀ r, cfg.rulesBySourceBranch.find?
        (fun ru => matchesBranch rt sourceBranch ru.matchType ru.matchPat) = some r →
      resolveRule rt cfg sourceBranch workItemType =
        { template := r.template, pfx := r.pfx,
          workItemState := r.workItemState, matchedRuleName := r.name }) ∧
    (cfg.rulesBySourceBranch.find?
        (fun ru => matchesBranch rt sourceBranch ru.matchType ru.matchPat) = none →
      ∀ r, cfg.rulesByWorkItemType.find?
          (fun ru => decide (mapLower ru.workItemType = mapLower workItemType)) = some r →
        resolveRule rt cfg sourceBranch workItemType =
          { template := r.template, pfx := r.pfx.getD [],
            workItemState := r.workItemState,
            matchedRuleName := "WI type: ".data ++ r.workItemType }) := by
  constructor
  · intro r h
    rw [resolveRule, findSourceRule_eq_find, h]
    rfl
  · intro hn r h
    rw [resolveRule, findSourceRule_eq_find, hn, findTypeRule_eq_find, h]
    rfl

/-- A fixture `GeneralConfig` mirroring the repository's default config. -/
def fixtureGeneral : GeneralConfig :=
  { lowercase := true, nonAlnumReplacement := some '-', maxLength := 80,
    allowManualNameOverride := true, language := "en".data }

/-- The fixture source-branch rule `Hotfix glob` of the repository's
tests. -/
def fixtureHotfixRule : SourceBranchRule :=
  { name := "Hotfix glob".data, matchType := .glob,
    matchPat := "hotfix/*".data, pfx := "hotfix/".data,
    template := "\x7bprefix\x7d\x7bwi.id\x7d".data, workItemState := none }

/-- A fixture configuration with one source-branch rule and one
work-item-type rule, both of which match the C1 witness request. -/
def fixtureCfg : ExtensionConfig :=
  { schemaVersion := 1, general := fixtureGeneral,
    defaults := { template := "feature/\x7bwi.id\x7d".data, workItemState := none },
    rulesBySourceBranch := [fixtureHotfixRule],
    rulesByWorkItemType :=
      [{ workItemType := "Bug".data, pfx := some "bugfix/".data,
         template := "\x7bprefix\x7d\x7bwi.id\x7d".data, workItemState := none }] }

/-- C1 witness: on the test fixture configuration, the matching
source-branch glob rule wins over the also-matching `Bug` type rule. -/
theorem resolveRule_precedence_witness :
    resolveRule (fun _ _ => some false) fixtureCfg "hotfix/1.2.3".data "Bug".data =
    { template := "\x7bprefix\x7d\x7bwi.id\x7d".data, pfx := "hotfix/".data,
      workItemState := none, matchedRuleName := "Hotfix glob".data } := by
  exact (resolveRule_precedence_spec (fun _ _ => some false) fixtureCfg
    "hotfix/1.2.3".data "Bug".data).1 fixtureHotfixRule (by decide)

/-- C7: errors in configured patterns are contained: a regex pattern
whose compilation fails tests as a non-match, a non-matching (hence also
a malformed) source-branch rule prepended to the configuration leaves
resolution unchanged (the rule is skipped), and when nothing matches in
either tier the engine still returns the default rule. -/
theorem resolveRule_never_throws_spec (rt : RegexTester) (cfg : ExtensionConfig)
    (sb wt : List Char) :
    (∀ pat, rt pat sb = none → matchesBranch rt sb .regex pat = false) ∧
    (∀ r, matchesBranch rt sb r.matchType r.matchPat = false →
      resolveRule rt { cfg with rulesBySourceBranch := r :: cfg.rulesBySourceBranch } sb wt
        = resolveRule rt cfg sb wt) ∧
    ((∀ r ∈ cfg.rulesBySourceBranch, matchesBranch rt sb r.matchType r.matchPat = false) →
     (∀ r ∈ cfg.rulesByWorkItemType, ¬ mapLower r.workItemType = mapLower wt) →
      resolveRule rt cfg sb wt =
        { template := cfg.defaults.template, pfx := [],
          workItemState := cfg.defaults.workItemState,
          matchedRuleName := "default".data }) := by
  refine ⟨?_, ?_, ?_⟩
  · intro pat h
    simp [matchesBranch, h]
  · intro r h
    simp [resolveRule, findSourceRule, h]
  · intro hsb hwt
    have h1 : findSourceRule rt sb cfg.rulesBySourceBranch = none := by
      rw [findSourceRule_eq_find]
      rw [List.find?_eq_none.mpr]
      · rfl
      · intro r hr
        simp [hsb r hr]
    have h2 : findTypeRule wt cfg.rulesByWorkItemType = none := by
      rw [findTypeRule_eq_find]
      rw [List.find?_eq_none.mpr]
      · rfl
      · intro r hr
        simp [hwt r hr]
    rw [resolveRule, h1, h2]

/-- C7 witness: with a regex tester that rejects the pattern
`[invalid-regex` (compilation throws), the rule carrying it is skipped
and a configuration containing only that rule resolves to the default. -/
def fixtureBadCfg : ExtensionConfig :=
  { schemaVersion := 1, general := fixtureGeneral,
    defaults := { template := "feature/\x7bwi.id\x7d".data, workItemState := none },
    rulesBySourceBranch :=
      [{ name := "Bad regex".data, matchType := .regex,
         matchPat := "[invalid-regex".data, pfx := "bad/".data,
         template := "\x7bwi.id\x7d".data, workItemState := none }],
    rulesByWorkItemType := [] }

theorem resolveRule_never_throws_witness :
    matchesBranch (fun _ _ => none) "hotfix/1.0".data .regex "[invalid-regex".data = false ∧
    resolveRule (fun _ _ => none) fixtureBadCfg "hotfix/1.0".data "Task".data =
    { template := "feature/\x7bwi.id\x7d".data, pfx := [],
      workItemState := none, matchedRuleName := "default".data } := by
  constructor
  · exact (resolveRule_never_throws_spec (fun _ _ => none) fixtureBadCfg
      "hotfix/1.0".data "Task".data).1 "[invalid-regex".data rfl
  · exact (resolveRule_never_throws_spec (fun _ _ => none) fixtureBadCfg
      "hotfix/1.0".data "Task".data).2.2 (by decide) (by decide)

/-! ## Renderer lemmas -/

theorem splitAtRBrace_shape {s tok rest : List Char}
    (h : splitAtRBrace s = some (tok, rest)) :
    s = tok ++ '}' :: rest ∧ '}' ∉ tok := by
  induction s generalizing tok with
  | nil => simp [splitAtRBrace] at h
  | cons c cs ih =>
    rw [splitAtRBrace] at h
    by_cases hc : c = '}'
    · rw [if_pos hc] at h
      simp only [Option.some.injEq, Prod.mk.injEq] at h
      obtain ⟨h1, h2⟩ := h
      subst hc
      subst h1
      subst h2
      simp
    · rw [if_neg hc] at h
      cases hs : splitAtRBrace cs with
      | none => rw [hs] at h; simp at h
      | some p =>
        rw [hs] at h
        obtain ⟨t', r'⟩ := p
        simp only [Option.map_some', Option.some.injEq, Prod.mk.injEq] at h
        obtain ⟨h1, h2⟩ := h
        subst h2
        obtain ⟨hshape, hmem⟩ := ih hs
        subst h1
        refine ⟨by simp [hshape], ?_⟩
        simp only [List.mem_cons, not_or]
        exact ⟨fun he => hc he.symm, hmem⟩

theorem splitAtRBrace_of_shape {tok : List Char} (post : List Char)
    (h : '}' ∉ tok) : splitAtRBrace (tok ++ '}' :: post) = some (tok, post) := by
  induction tok with
  | nil => simp [splitAtRBrace]
  | cons c cs ih =>
    have hc : ¬ c = '}' := fun he => h (he ▸ List.mem_cons_self ..)
    rw [List.cons_append, splitAtRBrace, if_neg hc,
      ih (fun hm => h (List.mem_cons_of_mem c hm))]
    rfl

theorem splitAtRBrace_none {s : List Char} (h : '}' ∉ s) :
    splitAtRBrace s = none := by
  induction s with
  | nil => rfl
  | cons c cs ih =>
    have hc : ¬ c = '}' := fun he => h (he ▸ List.mem_cons_self ..)
    rw [splitAtRBrace, if_neg hc, ih (fun hm => h (List.mem_cons_of_mem c hm))]
    rfl

theorem renderF_cons (ctx : TemplateContext) (f : Nat) (c : Char) (rest : List Char) :
    renderF ctx (f + 1) (c :: rest) =
      (if c = '{' then
        match splitAtRBrace rest with
        | some (tok, rest') =>
          if tok.isEmpty then '{' :: renderF ctx f rest
          else resolveToken ctx (jsTrim tok) ++ renderF ctx f rest'
        | none => '{' :: renderF ctx f rest
      else c :: renderF ctx f rest) := rfl

theorem renderF_irrel (ctx : TemplateContext) :
    ∀ f g s, s.length < f → s.length < g → renderF ctx f s = renderF ctx g s := by
  intro f
  induction f with
  | zero => intro g s h1 _; omega
  | succ f ih =>
    intro g s h1 h2
    cases g with
    | zero => omega
    | succ g =>
      cases s with
      | nil => rfl
      | cons c rest =>
        rw [renderF, renderF]
        by_cases hc : c = '{'
        · rw [if_pos hc, if_pos hc]
          cases hs : splitAtRBrace rest with
          | none =>
            exact congrArg (List.cons '{')
              (ih g rest (by simp at h1; omega) (by simp at h2; omega))
          | some p =>
            obtain ⟨tok, rest'⟩ := p
            have hlen : rest.length = tok.length + 1 + rest'.length := by
              rw [(splitAtRBrace_shape hs).1]; simp; omega
            by_cases he : tok.isEmpty
            · simp only [he, if_true]
              exact congrArg (List.cons '{')
                (ih g rest (by simp at h1; omega) (by simp at h2; omega))
            · simp only [he, Bool.false_eq_true, if_false]
              exact congrArg (resolveToken ctx (jsTrim tok) ++ ·)
                (ih g rest' (by simp at h1; omega) (by simp at h2; omega))
        · rw [if_neg hc, if_neg hc]
          exact congrArg (List.cons c)
            (ih g rest (by simp at h1; omega) (by simp at h2; omega))

theorem renderF_no_brace (ctx : TemplateContext) :
    ∀ fuel s, s.length < fuel → '{' ∉ s → renderF ctx fuel s = s := by
  intro fuel
  induction fuel with
  | zero => intro s h1 _; omega
  | succ f ih =>
    intro s h1 hb
    cases s with
    | nil => rfl
    | cons c rest =>
      have hc : ¬ c = '{' := fun he => hb (he ▸ List.mem_cons_self ..)
      rw [renderF, if_neg hc]
      rw [ih rest (by simp at h1; omega) (fun hm => hb (List.mem_cons_of_mem c hm))]

theorem render_no_brace (ctx : TemplateContext) {s : List Char} (h : '{' ∉ s) :
    render ctx s = s :=
  renderF_no_brace ctx (s.length + 1) s (by omega) h

theorem render_token_append (ctx : TemplateContext) :
    ∀ pre tok post, '{' ∉ pre → tok ≠ [] → '}' ∉ tok →
      render ctx (pre ++ '{' :: tok ++ '}' :: post)
        = pre ++ resolveToken ctx (jsTrim tok) ++ render ctx post := by
  intro pre
  induction pre with
  | nil =>
    intro tok post hpre htok hbr
    show renderF ctx (('{' :: (tok ++ '}' :: post)).length + 1) ('{' :: (tok ++ '}' :: post)) = _
    rw [show ('{' :: (tok ++ '}' :: post)).length + 1 = (tok ++ '}' :: post).length + 1 + 1 from by simp]
    rw [renderF_cons, if_pos rfl, splitAtRBrace_of_shape post hbr]
    have hne : tok.isEmpty = false := by
      cases tok with
      | nil => exact absurd rfl htok
      | cons a as => rfl
    simp only [hne, Bool.false_eq_true, if_false]
    rw [renderF_irrel ctx _ (post.length + 1) post (by simp; omega) (by omega)]
    rw [← render]
    simp
  | cons c cs ih =>
    intro tok post hpre htok hbr
    have hc : ¬ c = '{' := fun he => hpre (he ▸ List.mem_cons_self ..)
    show renderF ctx ((c :: (cs ++ '{' :: tok ++ '}' :: post)).length + 1)
      (c :: (cs ++ '{' :: tok ++ '}' :: post)) = _
    rw [show (c :: (cs ++ '{' :: tok ++ '}' :: post)).length + 1
        = (cs ++ '{' :: tok ++ '}' :: post).length + 1 + 1 from by simp]
    rw [renderF_cons, if_neg hc]
    rw [renderF_irrel ctx _ ((cs ++ '{' :: tok ++ '}' :: post).length + 1) _
      (by omega) (by omega)]
    rw [← render, ih tok post (fun hm => hpre (List.mem_cons_of_mem c hm)) htok hbr]
    simp

/-! ## Trim lemmas -/

theorem dropWhile_append_all {p : Char → Bool} {l : List Char} (t : List Char)
    (h : ∀ c ∈ l, p c = true) : (l ++ t).dropWhile p = t.dropWhile p := by
  induction l with
  | nil => rfl
  | cons a as ih =>
    rw [List.cons_append, List.dropWhile_cons, if_pos (h a (by simp))]
    exact ih (fun c hc => h c (by simp [hc]))

theorem dropWhile_append_of_ne {p : Char → Bool} {t : List Char} (r : List Char)
    (h : t.dropWhile p ≠ []) : (t ++ r).dropWhile p = t.dropWhile p ++ r := by
  induction t with
  | nil => exact absurd rfl h
  | cons a as ih =>
    rw [List.cons_append, List.dropWhile_cons, List.dropWhile_cons]
    by_cases ha : p a
    · rw [if_pos ha, if_pos ha]
      rw [List.dropWhile_cons, if_pos ha] at h
      exact ih h
    · simp only [Bool.not_eq_true] at ha
      simp [ha]

theorem jsTrim_pad {ws1 ws2 : List Char} (tok : List Char)
    (h1 : ∀ c ∈ ws1, isJsSpace c = true) (h2 : ∀ c ∈ ws2, isJsSpace c = true) :
    jsTrim (ws1 ++ tok ++ ws2) = jsTrim tok := by
  rw [jsTrim, jsTrim, stripClass, stripClass]
  rw [List.append_assoc, dropWhile_append_all _ h1]
  cases hd : tok.dropWhile isJsSpace with
  | nil =>
    have htok : ∀ c ∈ tok, isJsSpace c = true := by
      intro c hc
      exact List.dropWhile_eq_nil_iff.mp hd c hc
    rw [dropWhile_append_all _ htok]
    rw [List.dropWhile_eq_nil_iff.mpr h2]
  | cons a as =>
    rw [dropWhile_append_of_ne _ (by rw [hd]; simp), hd]
    rw [List.reverse_append]
    rw [dropWhile_append_all _ (fun c hc => h2 c (List.mem_reverse.mp hc))]

/-- C6: `render` substitutes placeholders through the fixed token table
and leaves everything else alone: (i) text without placeholders is
unchanged; (ii) a placeholder `\x7btok\x7d` embedded in brace-free text
is replaced by the trimmed token's table value, with the surrounding text
and the remainder rendered unchanged; (iii) whitespace padding inside
braces is trimmed away before lookup (so `\x7b wi.id \x7d` equals
`\x7bwi.id\x7d`); (iv) the six table entries resolve to the documented
context values (`wi.id` as the decimal id, `wi.assignedTo` defaulting to
the empty string); (v) every other token resolves to the empty string. -/
theorem render_template_spec (ctx : TemplateContext) :
    (∀ s, '{' ∉ s → render ctx s = s) ∧
    (∀ pre tok post, '{' ∉ pre → tok ≠ [] → '}' ∉ tok →
      render ctx (pre ++ '{' :: tok ++ '}' :: post)
        = pre ++ resolveToken ctx (jsTrim tok) ++ render ctx post) ∧
    (∀ ws1 ws2 tok, (∀ c ∈ ws1, isJsSpace c = true) →
      (∀ c ∈ ws2, isJsSpace c = true) →
      jsTrim (ws1 ++ tok ++ ws2) = jsTrim tok) ∧
    (resolveToken ctx "wi.id".data = (Nat.repr ctx.workItem.id).data ∧
     resolveToken ctx "wi.title".data = ctx.workItem.title ∧
     resolveToken ctx "wi.type".data = ctx.workItem.type ∧
     resolveToken ctx "wi.state".data = ctx.workItem.state ∧
     resolveToken ctx "wi.assignedTo".data = ctx.workItem.assignedTo.getD [] ∧
     resolveToken ctx "prefix".data = ctx.pfx) ∧
    (∀ tok, tok ∉ ["wi.id".data, "wi.title".data, "wi.type".data, "wi.state".data,
        "wi.assignedTo".data, "prefix".data] → resolveToken ctx tok = []) := by
  refine ⟨fun s h => render_no_brace ctx h, render_token_append ctx,
    fun ws1 ws2 tok h1 h2 => jsTrim_pad tok h1 h2,
    ⟨rfl, rfl, rfl, rfl, rfl, rfl⟩, ?_⟩
  intro tok h
  simp only [List.mem_cons, List.mem_singleton, not_or] at h
  obtain ⟨n1, n2, n3, n4, n5, n6, -⟩ := h
  rw [resolveToken, if_neg n1, if_neg n2, if_neg n3, if_neg n4, if_neg n5, if_neg n6]

/-- The renderer fixture work-item context of the repository's tests. -/
def fixtureCtx : TemplateContext :=
  { workItem := { id := 42, title := "Fix login bug".data, type := "Bug".data,
                  state := "Active".data, assignedTo := some "John Doe".data },
    pfx := [] }

/-- C6 witness: `x\x7b wi.id \x7dy` renders to `x42y` (substitution in
place, whitespace trimmed inside the braces). -/
theorem render_template_witness :
    render fixtureCtx ("x".data ++ '{' :: " wi.id ".data ++ '}' :: "y".data)
      = "x42y".data := by
  rw [(render_template_spec fixtureCtx).2.1 "x".data " wi.id ".data "y".data
    (by decide) (by decide) (by decide)]
  decide

/-! ## Validator lemmas -/

theorem mem_guard {c : Prop} [Decidable c] {x a : List Char} :
    x ∈ (if c then [a] else []) ↔ (c ∧ x = a) := by
  split <;> simp_all

theorem mem_guard_append {c : Prop} [Decidable c] {x m : List Char}
    {rest : List (List Char)} :
    x ∈ ((if c then [m] else []) ++ rest) ↔ ((c ∧ x = m) ∨ x ∈ rest) := by
  rw [List.mem_append, mem_guard]

/-- The `errors` list of `validateBranchName`, spelled out. -/
theorem validate_errors_eq (name : List Char) (maxLength : Nat) :
    (validateBranchName name maxLength).errors =
    (if name.isEmpty || (jsTrim name).isEmpty then ["Branch name cannot be empty.".data] else []) ++
    (if HARD_MAX_LENGTH < name.length then [hardLimitError] else []) ++
    (if name.any isJsSpace then ["Branch name cannot contain spaces.".data] else []) ++
    (if decide (('.' :: '.' :: []) <:+: name) then ["Branch name cannot contain \"..\".".data] else []) ++
    (if name.head? = some '-' || name.getLast? = some '-' then
      ["Branch name cannot start or end with a hyphen.".data] else []) ++
    (if name.any (fun c => c = '~' || c = '^' || c = ':' || c = '?' || c = '*' || c = '[' || c = '\\') then
      ["Branch name contains invalid characters.".data] else []) ++
    (if ".lock".data.isSuffixOf name then ["Branch name cannot end with \".lock\".".data] else []) := rfl

/-- C8: `validateBranchName` reports `valid` exactly when `errors` is
empty (warnings never affect it); a name longer than the soft
`maxLength` but within the hard 250-character ceiling gets the length
warning (carrying the actual length and the limit) and no hard-limit
error; and every check contributes its message to `errors` exactly when
its condition holds, independently of the others (violations are
collected, not short-circuited). -/
theorem validate_spec (name : List Char) (maxLength : Nat) :
    ((validateBranchName name maxLength).valid = true ↔
      (validateBranchName name maxLength).errors = []) ∧
    (maxLength < name.length → name.length ≤ HARD_MAX_LENGTH →
      (validateBranchName name maxLength).warnings
          = [lengthWarning name.length maxLength] ∧
        hardLimitError ∉ (validateBranchName name maxLength).errors) ∧
    (¬ maxLength < name.length →
      (validateBranchName name maxLength).warnings = []) ∧
    ("Branch name cannot be empty.".data ∈ (validateBranchName name maxLength).errors
        ↔ (name = [] ∨ jsTrim name = [])) ∧
    (hardLimitError ∈ (validateBranchName name maxLength).errors
        ↔ HARD_MAX_LENGTH < name.length) ∧
    ("Branch name cannot contain spaces.".data ∈ (validateBranchName name maxLength).errors
        ↔ name.any isJsSpace = true) ∧
    ("Branch name cannot contain \"..\".".data ∈ (validateBranchName name maxLength).errors
        ↔ ('.' :: '.' :: []) <:+: name) ∧
    ("Branch name cannot start or end with a hyphen.".data ∈ (validateBranchName name maxLength).errors
        ↔ (name.head? = some '-' ∨ name.getLast? = some '-')) ∧
    ("Branch name contains invalid characters.".data ∈ (validateBranchName name maxLength).errors
        ↔ name.any (fun c => c = '~' || c = '^' || c = ':' || c = '?' || c = '*' || c = '[' || c = '\\') = true) ∧
    ("Branch name cannot end with \".lock\".".data ∈ (validateBranchName name maxLength).errors
        ↔ ".lock".data.isSuffixOf name = true) := by
  refine ⟨?_, ?_, ?_, ?_, ?_, ?_, ?_, ?_, ?_, ?_⟩
  · simp only [validateBranchName]
    rw [List.isEmpty_iff]
  · intro h1 h2
    constructor
    · simp only [validateBranchName]
      rw [if_pos h1]
    · rw [validate_errors_eq]
      simp only [List.append_assoc]
      rw [mem_guard_append, mem_guard_append, mem_guard_append, mem_guard_append,
        mem_guard_append, mem_guard_append, mem_guard]
      rintro (⟨hc, he⟩ | ⟨hc, he⟩ | ⟨hc, he⟩ | ⟨hc, he⟩ | ⟨hc, he⟩ | ⟨hc, he⟩ | ⟨hc, he⟩) <;>
        first
          | (exact absurd hc (by omega))
          | (exact absurd he (by decide))
  · intro h1
    simp only [validateBranchName]
    rw [if_neg h1]
  · rw [validate_errors_eq]
    simp only [List.append_assoc]
    rw [mem_guard_append, mem_guard_append, mem_guard_append, mem_guard_append,
      mem_guard_append, mem_guard_append, mem_guard]
    constructor
    · rintro (⟨hc, he⟩ | ⟨hc, he⟩ | ⟨hc, he⟩ | ⟨hc, he⟩ | ⟨hc, he⟩ | ⟨hc, he⟩ | ⟨hc, he⟩) <;>
        first
          | (simpa [List.isEmpty_iff] using hc)
          | (exact absurd he (by decide))
    · intro hc
      exact Or.inl ⟨by simpa [List.isEmpty_iff] using hc, rfl⟩
  · rw [validate_errors_eq]
    simp only [List.append_assoc]
    rw [mem_guard_append, mem_guard_append, mem_guard_append, mem_guard_append,
      mem_guard_append, mem_guard_append, mem_guard]
    constructor
    · rintro (⟨hc, he⟩ | ⟨hc, he⟩ | ⟨hc, he⟩ | ⟨hc, he⟩ | ⟨hc, he⟩ | ⟨hc, he⟩ | ⟨hc, he⟩) <;>
        first
          | (exact hc)
          | (exact absurd he (by decide))
    · intro hc
      exact Or.inr (Or.inl ⟨hc, rfl⟩)
  · rw [validate_errors_eq]
    simp only [List.append_assoc]
    rw [mem_guard_append, mem_guard_append, mem_guard_append, mem_guard_append,
      mem_guard_append, mem_guard_append, mem_guard]
    constructor
    · rintro (⟨hc, he⟩ | ⟨hc, he⟩ | ⟨hc, he⟩ | ⟨hc, he⟩ | ⟨hc, he⟩ | ⟨hc, he⟩ | ⟨hc, he⟩) <;>
        first
          | (exact hc)
          | (exact absurd he (by decide))
    · intro hc
      exact Or.inr (Or.inr (Or.inl ⟨hc, rfl⟩))
  · rw [validate_errors_eq]
    simp only [List.append_assoc]
    rw [mem_guard_append, mem_guard_append, mem_guard_append, mem_guard_append,
      mem_guard_append, mem_guard_append, mem_guard]
    constructor
    · rintro (⟨hc, he⟩ | ⟨hc, he⟩ | ⟨hc, he⟩ | ⟨hc, he⟩ | ⟨hc, he⟩ | ⟨hc, he⟩ | ⟨hc, he⟩) <;>
        first
          | (simpa using hc)
          | (exact absurd he (by decide))
    · intro hc
      exact Or.inr (Or.inr (Or.inr (Or.inl ⟨by simpa using hc, rfl⟩)))
  · rw [validate_errors_eq]
    simp only [List.append_assoc]
    rw [mem_guard_append, mem_guard_append, mem_guard_append, mem_guard_append,
      mem_guard_append, mem_guard_append, mem_guard]
    constructor
    · rintro (⟨hc, he⟩ | ⟨hc, he⟩ | ⟨hc, he⟩ | ⟨hc, he⟩ | ⟨hc, he⟩ | ⟨hc, he⟩ | ⟨hc, he⟩) <;>
        first
          | (simpa using hc)
          | (exact absurd he (by decide))
    · intro hc
      exact Or.inr (Or.inr (Or.inr (Or.inr (Or.inl ⟨by simpa using hc, rfl⟩))))
  · rw [validate_errors_eq]
    simp only [List.append_assoc]
    rw [mem_guard_append, mem_guard_append, mem_guard_append, mem_guard_append,
      mem_guard_append, mem_guard_append, mem_guard]
    constructor
    · rintro (⟨hc, he⟩ | ⟨hc, he⟩ | ⟨hc, he⟩ | ⟨hc, he⟩ | ⟨hc, he⟩ | ⟨hc, he⟩ | ⟨hc, he⟩) <;>
        first
          | (exact hc)
          | (exact absurd he (by decide))
    · intro hc
      exact Or.inr (Or.inr (Or.inr (Or.inr (Or.inr (Or.inl ⟨hc, rfl⟩)))))
  · rw [validate_errors_eq]
    simp only [List.append_assoc]
    rw [mem_guard_append, mem_guard_append, mem_guard_append, mem_guard_append,
      mem_guard_append, mem_guard_append, mem_guard]
    constructor
    · rintro (⟨hc, he⟩ | ⟨hc, he⟩ | ⟨hc, he⟩ | ⟨hc, he⟩ | ⟨hc, he⟩ | ⟨hc, he⟩ | ⟨hc, he⟩) <;>
        first
          | (exact hc)
          | (exact absurd he (by decide))
    · intro hc
      exact Or.inr (Or.inr (Or.inr (Or.inr (Or.inr (Or.inr (⟨hc, rfl⟩))))))

set_option maxRecDepth 8000 in
/-- C8 witness: a 90-character name validated against a soft limit of 80
draws a warning (carrying 90 and 80) but no hard-limit error, and stays
valid; a name with a space draws the space error and is invalid. -/
theorem validate_witness :
    (validateBranchName (List.replicate 90 'a') 80).warnings
        = [lengthWarning 90 80] ∧
    hardLimitError ∉ (validateBranchName (List.replicate 90 'a') 80).errors ∧
    (validateBranchName (List.replicate 90 'a') 80).valid = true ∧
    ("Branch name cannot contain spaces.".data
        ∈ (validateBranchName "feature/my branch".data 80).errors) ∧
    (validateBranchName "feature/my branch".data 80).valid = false := by
  have h := (validate_spec (List.replicate 90 'a') 80).2.1 (by decide) (by decide)
  have h2 := ((validate_spec "feature/my branch".data 80).2.2.2.2.2.1).mpr (by decide)
  exact ⟨(by decide : (List.replicate 90 'a').length = 90) ▸ h.1, h.2, by decide, h2, by decide⟩

/-! ## Truncation lemmas -/

theorem takeWhile_append_all {p : Char → Bool} {l : List Char} (r : List Char)
    (h : ∀ c ∈ l, p c = true) : (l ++ r).takeWhile p = l ++ r.takeWhile p := by
  induction l with
  | nil => rfl
  | cons a as ih =>
    rw [List.cons_append, List.takeWhile_cons, if_pos (h a (by simp)),
      ih (fun c hc => h c (by simp [hc])), List.cons_append]

theorem drop_takeWhile_length (p : Char → Bool) (l : List Char) :
    l.drop (l.takeWhile p).length = l.dropWhile p := by
  induction l with
  | nil => rfl
  | cons a as ih =>
    by_cases h : p a
    · simp [List.takeWhile_cons, List.dropWhile_cons, h, ih]
    · simp [List.takeWhile_cons, List.dropWhile_cons, h]

theorem stripTrailingHyphens_prefix_self (s : List Char) :
    stripTrailingHyphens s <+: s := by
  rw [stripTrailingHyphens]
  have h := List.reverse_prefix.mpr
    (List.dropWhile_suffix (l := s.reverse) (fun c => c = '-'))
  rwa [List.reverse_reverse] at h

theorem length_stripTrailingHyphens_le (s : List Char) :
    (stripTrailingHyphens s).length ≤ s.length :=
  (stripTrailingHyphens_prefix_self s).length_le

/-- What a successful `tryIdFrom` attempt looks like. -/
theorem tryIdFrom_shape {pre rest p i t : List Char}
    (h : tryIdFrom pre rest = some (p, i, t)) :
    p = pre ∧ i = rest.takeWhile Char.isDigit ++ ['-'] ∧
      rest = rest.takeWhile Char.isDigit ++ '-' :: t ∧
      rest.takeWhile Char.isDigit ≠ [] := by
  rw [tryIdFrom] at h
  split at h
  · simp at h
  · rename_i hd
    split at h
    · rename_i c title' heq
      split at h
      · rename_i hc
        simp only [Option.some.injEq, Prod.mk.injEq] at h
        obtain ⟨h1, h2, h3⟩ := h
        simp only [Bool.and_eq_true, decide_eq_true_eq] at hc
        subst h3
        refine ⟨h1.symm, h2.symm, ?_, by simpa using hd⟩
        have hdw : rest.dropWhile Char.isDigit = '-' :: title' := by
          rw [← drop_takeWhile_length, heq, hc.1]
        conv_lhs => rw [← List.takeWhile_append_dropWhile Char.isDigit rest]
        rw [hdw]
      · simp at h
    · simp at h

/-- A successful `tryIdFrom` attempt on a string already in id form. -/
theorem tryIdFrom_of_shape (pre : List Char) {d title : List Char}
    (hd : d ≠ []) (hdig : ∀ c ∈ d, c.isDigit = true)
    (ht : title.any isLineTerm = false) :
    tryIdFrom pre (d ++ '-' :: title) = some (pre, d ++ ['-'], title) := by
  have htake : (d ++ '-' :: title).takeWhile Char.isDigit = d :=
    takeWhile_all_append '-' title hdig rfl
  rw [tryIdFrom, htake, if_neg (by simpa using hd), List.drop_left]
  simp [ht]

/-- The leading part of an id-form name satisfies the slash-free
predicate used by `idSplit`. -/
theorem idForm_takeWhile {d title : List Char}
    (hdig : ∀ c ∈ d, c.isDigit = true) :
    (d ++ '-' :: title).takeWhile (fun c => !(c = '/'))
      = (d ++ ['-']) ++ title.takeWhile (fun c => !(c = '/')) := by
  rw [show d ++ '-' :: title = (d ++ ['-']) ++ title from by simp]
  refine takeWhile_append_all title ?_
  intro x hx
  simp only [List.mem_append, List.mem_singleton] at hx
  rcases hx with hx | hx
  · have hxd := hdig x hx
    simp only [Bool.not_eq_true']
    apply decide_eq_false
    intro he
    subst he
    simp [Char.isDigit] at hxd
  · subst hx
    decide

/-- On a name of the claimed form (optional slash-terminated leading
segment, digits, hyphen, line-terminator-free title), `idSplit` succeeds,
decomposes the name, and its reserved part is at least the leading part
plus the digits and the hyphen. -/
theorem idSplit_of_form {pre d title : List Char}
    (hpre : pre = [] ∨ ∃ s, pre = s ++ ['/'] ∧ '/' ∉ s)
    (hd : d ≠ []) (hdig : ∀ c ∈ d, c.isDigit = true)
    (ht : title.any isLineTerm = false) :
    ∃ p i t, idSplit (pre ++ d ++ '-' :: title) = some (p, i, t) ∧
      pre ++ d ++ '-' :: title = p ++ i ++ t ∧
      pre.length + d.length + 1 ≤ p.length + i.length := by
  rcases hpre with hpre | ⟨s, hpre, hs⟩
  · subst hpre
    simp only [List.nil_append, List.length_nil, Nat.zero_add]
    cases hsl : (d ++ '-' :: title).dropWhile (fun c => !(c = '/')) with
    | nil =>
      have hid : idSplit (d ++ '-' :: title) = tryIdFrom [] (d ++ '-' :: title) := by
        rw [idSplit]
        simp only [hsl]
      rw [hid]
      exact ⟨[], d ++ ['-'], title, tryIdFrom_of_shape [] hd hdig ht, by simp, by simp⟩
    | cons c after =>
      cases htry : tryIdFrom
          ((d ++ '-' :: title).takeWhile (fun c => !(c = '/')) ++ ['/']) after with
      | none =>
        have hid : idSplit (d ++ '-' :: title) = tryIdFrom [] (d ++ '-' :: title) := by
          rw [idSplit]
          simp only [hsl, htry]
        rw [hid]
        exact ⟨[], d ++ ['-'], title, tryIdFrom_of_shape [] hd hdig ht, by simp, by simp⟩
      | some r =>
        obtain ⟨p', i', t'⟩ := r
        have hid : idSplit (d ++ '-' :: title) = some (p', i', t') := by
          rw [idSplit]
          simp only [hsl, htry]
        obtain ⟨h1, h2, h3, h4⟩ := tryIdFrom_shape htry
        have hc : c = '/' := by
          have hh := List.head?_dropWhile_not (fun c => !(c = '/')) (d ++ '-' :: title)
          rw [hsl] at hh
          simpa using hh
        have hname : d ++ '-' :: title
            = (d ++ '-' :: title).takeWhile (fun c => !(c = '/')) ++ c :: after := by
          conv_lhs => rw [← List.takeWhile_append_dropWhile
            (fun c => !(c = '/')) (d ++ '-' :: title)]
          rw [hsl]
        refine ⟨p', i', t', hid, ?_, ?_⟩
        · rw [h1, h2]
          conv_lhs => rw [hname, hc, h3]
          simp
        · rw [h1, h2, idForm_takeWhile hdig]
          simp only [List.length_append, List.length_cons, List.length_singleton]
          omega
  · subst hpre
    have hsp : ∀ c ∈ s, (fun c => !(c = '/')) c = true := by
      intro c hc
      simp only [Bool.not_eq_true']
      exact decide_eq_false (fun he => hs (he ▸ hc))
    have hshape : (s ++ ['/']) ++ d ++ '-' :: title = s ++ '/' :: (d ++ '-' :: title) := by
      simp
    have htake : ((s ++ ['/']) ++ d ++ '-' :: title).takeWhile (fun c => !(c = '/')) = s := by
      rw [hshape]
      exact takeWhile_all_append '/' _ hsp (by decide)
    have hdrop : ((s ++ ['/']) ++ d ++ '-' :: title).dropWhile (fun c => !(c = '/'))
        = '/' :: (d ++ '-' :: title) := by
      rw [hshape, dropWhile_append_all _ hsp, List.dropWhile_cons]
      simp
    have hid : idSplit ((s ++ ['/']) ++ d ++ '-' :: title)
        = some (s ++ ['/'], d ++ ['-'], title) := by
      rw [idSplit]
      simp only [hdrop, htake]
      simp only [tryIdFrom_of_shape (s ++ ['/']) hd hdig ht]
    exact ⟨s ++ ['/'], d ++ ['-'], title, hid, by simp, by simp; omega⟩

/-- Decomposing a `take` of an id-form name that keeps at least the
leading part, the digits and the hyphen. -/
theorem take_idForm (pre d title : List Char) (R : Nat)
    (hR : pre.length + d.length + 1 ≤ R) :
    (pre ++ d ++ '-' :: title).take R
      = pre ++ d ++ '-' :: title.take (R - (pre.length + d.length + 1)) := by
  have hshape : pre ++ d ++ '-' :: title = ((pre ++ d) ++ ['-']) ++ title := by simp
  rw [hshape, List.take_append_eq_append_take]
  rw [List.take_of_length_le (by simp; omega)]
  have hlen : (pre ++ d ++ ['-']).length = pre.length + d.length + 1 := by
    simp
    omega
  rw [show ((pre ++ d) ++ ['-']) = pre ++ d ++ ['-'] from rfl, hlen]
  simp

theorem truncate_length_le (name : List Char) (maxLength : Nat)
    (h : ¬ name.length ≤ maxLength) :
    (truncateBranchName name maxLength).length ≤ maxLength := by
  cases hsplit : idSplit name with
  | none =>
    have heval : truncateBranchName name maxLength
        = stripTrailingHyphens (name.take maxLength) := by
      rw [truncateBranchName, if_neg h, hsplit]
    rw [heval]
    have h1 := length_stripTrailingHyphens_le (name.take maxLength)
    have h2 := List.length_take maxLength name
    omega
  | some r =>
    obtain ⟨p, i, t⟩ := r
    have heval : truncateBranchName name maxLength
        = if p.length + i.length < maxLength
          then p ++ i ++ stripTrailingHyphens (t.take (maxLength - (p.length + i.length)))
          else name.take maxLength := by
      rw [truncateBranchName, if_neg h, hsplit]
    rw [heval]
    by_cases hrsv : p.length + i.length < maxLength
    · rw [if_pos hrsv]
      have h1 := length_stripTrailingHyphens_le (t.take (maxLength - (p.length + i.length)))
      have h2 := List.length_take (maxLength - (p.length + i.length)) t
      simp only [List.length_append]
      omega
    · rw [if_neg hrsv]
      have h2 := List.length_take maxLength name
      omega

/-- C4: `sanitizeBranchName` always returns a name of length at most
`cfg.maxLength`, for every input and configuration. -/
theorem sanitizeName_length_spec (cfg : GeneralConfig) (name : List Char) :
    (sanitizeBranchName cfg name).length ≤ cfg.maxLength := by
  rw [sanitizeBranchName]
  by_cases h : cfg.maxLength < (sanitizeCore cfg name).length
  · rw [if_pos h]
    exact truncate_length_le _ _ (by omega)
  · rw [if_neg h]
    omega

/-- C5 (amended): on a name `<leading?>/<digits>-<title>` whose leading
part plus `<digits>-` fits within `maxLength`, and whose title tail
contains no LineTerminator (which the JS dot in the id regex cannot
match), truncation preserves the `<leading?>/<digits>-` part verbatim at
the start and only shortens the title tail to one of its prefixes. -/
theorem truncate_preserves_id_spec (pre d title : List Char) (maxLength : Nat)
    (hpre : pre = [] ∨ ∃ s, pre = s ++ ['/'] ∧ '/' ∉ s)
    (hd : d ≠ []) (hdig : ∀ c ∈ d, c.isDigit = true)
    (ht : title.any isLineTerm = false)
    (hfit : pre.length + d.length + 1 ≤ maxLength) :
    ∃ t', truncateBranchName (pre ++ d ++ '-' :: title) maxLength
        = pre ++ d ++ '-' :: t' ∧ t' <+: title := by
  by_cases hlen : (pre ++ d ++ '-' :: title).length ≤ maxLength
  · exact ⟨title, by rw [truncateBranchName, if_pos hlen], List.prefix_refl _⟩
  · obtain ⟨p, i, t, hsplit, hname, hres⟩ := idSplit_of_form hpre hd hdig ht
    have heval : truncateBranchName (pre ++ d ++ '-' :: title) maxLength
        = if p.length + i.length < maxLength
          then p ++ i ++ stripTrailingHyphens (t.take (maxLength - (p.length + i.length)))
          else (pre ++ d ++ '-' :: title).take maxLength := by
      rw [truncateBranchName, if_neg hlen, hsplit]
    rw [heval]
    by_cases hrsv : p.length + i.length < maxLength
    · rw [if_pos hrsv]
      set u := stripTrailingHyphens (t.take (maxLength - (p.length + i.length))) with hu
      have hup : u <+: t :=
        (stripTrailingHyphens_prefix_self _).trans (List.take_prefix _ _)
      have hresult : p ++ i ++ u
          = (pre ++ d ++ '-' :: title).take (p.length + i.length + u.length) := by
        rw [hname]
        rw [show p ++ i ++ t = (p ++ i) ++ t from by simp,
          List.take_append_eq_append_take,
          List.take_of_length_le (by simp)]
        simp only [List.length_append]
        rw [show p.length + i.length + u.length - (p.length + i.length) = u.length
          from by omega]
        rw [← List.prefix_iff_eq_take.mp hup]
      rw [hresult, take_idForm pre d title _ (by omega)]
      exact ⟨_, rfl, List.take_prefix _ _⟩
    · rw [if_neg hrsv]
      rw [take_idForm pre d title maxLength hfit]
      exact ⟨_, rfl, List.take_prefix _ _⟩

/-- C5 witness: truncating `feature/12345-this-is-a-very-long-title` to
30 keeps `feature/12345-` and a prefix of the title. -/
theorem truncate_preserves_id_witness :
    truncateBranchName "feature/12345-this-is-a-very-long-title".data 30
      = "feature/12345-this-is-a-very-l".data := by
  obtain ⟨t', heq, hpref⟩ := truncate_preserves_id_spec
    "feature/".data "12345".data "this-is-a-very-long-title".data 30
    (Or.inr ⟨"feature".data, by decide, by decide⟩) (by decide) (by decide)
    (by decide) (by decide)
  rw [show "feature/".data ++ "12345".data ++ '-' :: "this-is-a-very-long-title".data
      = "feature/12345-this-is-a-very-long-title".data from by decide] at heq
  rw [heq]
  rw [show t' = "this-is-a-very-l".data from ?_]
  · decide
  · have hL := congrArg List.length heq
    rw [show (truncateBranchName "feature/12345-this-is-a-very-long-title".data 30).length
        = 30 from by decide] at hL
    simp at hL
    have h2 := List.prefix_iff_eq_take.mp hpref
    rw [h2, show t'.length = 16 from by omega]
    decide

/-- C5 counterexample for the claim as stated: the title tail `--x\n`
contains a newline, which JS `.` cannot match, so the id regex fails and
the hard-truncation path strips the hyphen of `12-`: the full `a/12-`
(which fits in `maxLength = 7`) is not preserved. -/
theorem truncate_newline_counterexample :
    truncateBranchName "a/12---x\n".data 7 = "a/12".data ∧
    ¬ ("a/12-".data <+: truncateBranchName "a/12---x\n".data 7) := by decide

/-! ## Glob lemmas -/

theorem splitOnSlash_ne_nil (s : List Char) : splitOnSlash s ≠ [] := by
  cases s with
  | nil => simp [splitOnSlash]
  | cons c rest =>
    rw [splitOnSlash]
    by_cases h : c = '/'
    · simp [h]
    · rw [if_neg h]
      cases splitOnSlash rest <;> simp

theorem splitOnSlash_single {s : List Char} (h : '/' ∉ s) :
    splitOnSlash s = [s] := by
  induction s with
  | nil => rfl
  | cons c rest ih =>
    have hc : ¬ c = '/' := fun he => h (he ▸ List.mem_cons_self ..)
    rw [splitOnSlash, if_neg hc, ih (fun hm => h (List.mem_cons_of_mem c hm))]

theorem splitOnSlash_append_slash {a : List Char} (rest : List Char)
    (h : '/' ∉ a) : splitOnSlash (a ++ '/' :: rest) = a :: splitOnSlash rest := by
  induction a with
  | nil => simp [splitOnSlash]
  | cons c cs ih =>
    have hc : ¬ c = '/' := fun he => h (he ▸ List.mem_cons_self ..)
    rw [List.cons_append, splitOnSlash, if_neg hc,
      ih (fun hm => h (List.mem_cons_of_mem c hm))]

theorem lowerChar_slash_iff {c : Char} : lowerChar c = '/' ↔ c = '/' := by
  constructor
  · exact eq_of_lowerChar_eq (by decide)
  · intro h; subst h; decide

theorem lowerChar_dot_iff {c : Char} : lowerChar c = '.' ↔ c = '.' := by
  constructor
  · exact eq_of_lowerChar_eq (by decide)
  · intro h; subst h; decide

theorem mapLower_splitOnSlash (s : List Char) :
    splitOnSlash (mapLower s) = (splitOnSlash s).map mapLower := by
  induction s with
  | nil => rfl
  | cons c rest ih =>
    rw [show mapLower (c :: rest) = lowerChar c :: mapLower rest from rfl]
    rw [splitOnSlash, splitOnSlash]
    by_cases h : c = '/'
    · rw [if_pos (lowerChar_slash_iff.mpr h), if_pos h, List.map_cons, ih]
      rfl
    · rw [if_neg (fun he => h (lowerChar_slash_iff.mp he)), if_neg h, ih]
      cases hr : splitOnSlash rest with
      | nil => exact absurd hr (splitOnSlash_ne_nil rest)
      | cons t ts => rfl

theorem head?_mapLower (s : List Char) :
    (mapLower s).head? = s.head?.map lowerChar := by
  cases s <;> rfl

theorem isEmpty_mapLower (s : List Char) : (mapLower s).isEmpty = s.isEmpty := by
  cases s <;> rfl

theorem head_dot_mapLower_iff (s : List Char) :
    (mapLower s).head? = some '.' ↔ s.head? = some '.' := by
  cases s with
  | nil => exact Iff.rfl
  | cons c rest =>
    show some (lowerChar c) = some '.' ↔ some c = some '.'
    simp only [Option.some.injEq]
    exact ⟨fun h => lowerChar_dot_iff.mp h, fun h => by subst h; decide⟩

theorem head_dot_mapLower (s : List Char) :
    decide ((mapLower s).head? = some '.') = decide (s.head? = some '.') :=
  decide_eq_decide.mpr (head_dot_mapLower_iff s)

theorem regMatchF_nil_pat (f : Nat) (inp : List Char) :
    regMatchF (f + 1) [] inp = inp.isEmpty := rfl

theorem regMatchF_cons (f : Nat) (p : Char) (ps inp : List Char) :
    regMatchF (f + 1) (p :: ps) inp =
      (if p = '*' then
        regMatchF f ps inp ||
          (match inp with
           | [] => false
           | _ :: cs => regMatchF f (p :: ps) cs)
      else
        match inp with
        | [] => false
        | c :: cs => (p = '?' || lowerChar p = lowerChar c) && regMatchF f ps cs) := rfl

theorem regMatchF_lower (fuel : Nat) : ∀ (pat inp : List Char),
    regMatchF fuel pat (mapLower inp) = regMatchF fuel pat inp := by
  induction fuel with
  | zero => intro pat inp; rfl
  | succ f ih =>
    intro pat inp
    cases pat with
    | nil => rw [regMatchF_nil_pat, regMatchF_nil_pat, isEmpty_mapLower]
    | cons p ps =>
      rw [regMatchF_cons, regMatchF_cons]
      by_cases hp : p = '*'
      · rw [if_pos hp, if_pos hp, ih ps inp]
        cases inp with
        | nil => rfl
        | cons c cs =>
          rw [show mapLower (c :: cs) = lowerChar c :: mapLower cs from rfl]
          rw [show (match (lowerChar c :: mapLower cs : List Char) with
              | [] => false
              | _ :: cs => regMatchF f (p :: ps) cs) = regMatchF f (p :: ps) (mapLower cs)
            from rfl]
          rw [ih (p :: ps) cs]
      · rw [if_neg hp, if_neg hp]
        cases inp with
        | nil => rfl
        | cons c cs =>
          rw [show mapLower (c :: cs) = lowerChar c :: mapLower cs from rfl]
          show ((p = '?' || lowerChar p = lowerChar (lowerChar c)) && regMatchF f ps (mapLower cs))
              = ((p = '?' || lowerChar p = lowerChar c) && regMatchF f ps cs)
          rw [lowerChar_idem c, ih ps cs]

theorem segMatch_lower (pat inp : List Char) :
    segMatch pat (mapLower inp) = segMatch pat inp := by
  rw [segMatch, segMatch]
  by_cases hp : pat = ['*']
  · rw [if_pos hp, if_pos hp, isEmpty_mapLower, head_dot_mapLower]
  · rw [if_neg hp, if_neg hp]
    by_cases hm : hasMagic pat
    · rw [if_pos hm, if_pos hm, head_dot_mapLower, length_mapLower,
        regMatchF_lower]
    · rw [if_neg hm, if_neg hm]
      exact decide_eq_decide.mpr (by rw [mapLower_idem])

theorem matchSegs_lower : ∀ (ps fs : List (List Char)),
    matchSegs ps (fs.map mapLower) = matchSegs ps fs := by
  intro ps
  induction ps with
  | nil =>
    intro fs
    cases fs with
    | nil => rfl
    | cons f fs' =>
      cases fs' with
      | nil => rw [List.map_cons, List.map_nil, matchSegs, matchSegs, isEmpty_mapLower]
      | cons g gs => rfl
  | cons p ps ih =>
    intro fs
    cases fs with
    | nil => rfl
    | cons f fs' =>
      rw [List.map_cons, matchSegs, matchSegs, segMatch_lower, ih fs']

theorem minimatchFn_lower (pattern input : List Char) :
    minimatchFn pattern (mapLower input) = minimatchFn pattern input := by
  rw [minimatchFn, minimatchFn]
  by_cases h1 : pattern.head? = some '#'
  · rw [if_pos h1, if_pos h1]
  · rw [if_neg h1, if_neg h1]
    by_cases h2 : pattern.isEmpty
    · rw [if_pos h2, if_pos h2, isEmpty_mapLower]
    · rw [if_neg h2, if_neg h2]
      by_cases h3 : (stripNegate pattern false).1.isEmpty
      · simp only [h3, if_true, isEmpty_mapLower]
      · simp only [h3, Bool.false_eq_true, if_false, mapLower_splitOnSlash,
          matchSegs_lower]

/-- C2 (amended): glob matching via `minimatch` with `nocase` is
case-insensitive, but `*` is segment-scoped: it matches any non-empty
run of non-`/` characters not starting with `.` within one
slash-delimited segment, and never spans a `/`.  So `hotfix/*` matches
`hotfix/<segment>` but no multi-segment branch. -/
theorem glob_segment_spec :
    (∀ pattern input, minimatchFn pattern (mapLower input) = minimatchFn pattern input) ∧
    (∀ s, s ≠ [] → '/' ∉ s → ¬ s.head? = some '.' →
      minimatchFn "hotfix/*".data ("hotfix/".data ++ s) = true) ∧
    (∀ s₁ s₂, '/' ∉ s₁ → '/' ∉ s₂ → s₂ ≠ [] →
      minimatchFn "hotfix/*".data ("hotfix/".data ++ s₁ ++ '/' :: s₂) = false) := by
  refine ⟨minimatchFn_lower, ?_, ?_⟩
  · intro s h1 h2 h3
    rw [show "hotfix/".data ++ s = "hotfix".data ++ '/' :: s from rfl]
    rw [show minimatchFn "hotfix/*".data ("hotfix".data ++ '/' :: s)
        = matchSegs ["hotfix".data, ['*']] (splitOnSlash ("hotfix".data ++ '/' :: s))
      from rfl]
    rw [splitOnSlash_append_slash s (by decide), splitOnSlash_single h2]
    rw [show matchSegs ["hotfix".data, ['*']] ["hotfix".data, s]
        = (segMatch "hotfix".data "hotfix".data && (segMatch ['*'] s && true)) from rfl]
    rw [show segMatch "hotfix".data "hotfix".data = true from by decide]
    rw [show segMatch ['*'] s = (!s.isEmpty && !decide (s.head? = some '.')) from rfl]
    have h4 : s.isEmpty = false := by
      cases s with
      | nil => exact absurd rfl h1
      | cons a as => rfl
    simp [h4, h3]
  · intro s₁ s₂ hs1 hs2 hne
    rw [show "hotfix/".data ++ s₁ ++ '/' :: s₂ = "hotfix".data ++ '/' :: (s₁ ++ '/' :: s₂)
      from by simp]
    rw [show minimatchFn "hotfix/*".data ("hotfix".data ++ '/' :: (s₁ ++ '/' :: s₂))
        = matchSegs ["hotfix".data, ['*']]
            (splitOnSlash ("hotfix".data ++ '/' :: (s₁ ++ '/' :: s₂))) from rfl]
    rw [splitOnSlash_append_slash _ (by decide), splitOnSlash_append_slash _ hs1,
      splitOnSlash_single hs2]
    rw [show matchSegs ["hotfix".data, ['*']] ["hotfix".data, s₁, s₂]
        = (segMatch "hotfix".data "hotfix".data
            && (segMatch ['*'] s₁ && matchSegs [] [s₂])) from rfl]
    rw [show matchSegs ([] : List (List Char)) [s₂] = s₂.isEmpty from rfl]
    have h4 : s₂.isEmpty = false := by
      cases s₂ with
      | nil => exact absurd rfl hne
      | cons a as => rfl
    simp [h4]

/-- C2 witness: `hotfix/*` matches the single-segment `hotfix/1.0`,
matching is insensitive to the case of `HOTFIX/1.0`, and `hotfix/sub/path`
is rejected. -/
theorem glob_segment_witness :
    minimatchFn "hotfix/*".data ("hotfix/".data ++ "1.0".data) = true ∧
    minimatchFn "hotfix/*".data (mapLower "HOTFIX/1.0".data)
      = minimatchFn "hotfix/*".data "HOTFIX/1.0".data ∧
    minimatchFn "hotfix/*".data ("hotfix/".data ++ "sub".data ++ '/' :: "path".data)
      = false :=
  ⟨glob_segment_spec.2.1 "1.0".data (by decide) (by decide) (by decide),
   glob_segment_spec.1 "hotfix/*".data "HOTFIX/1.0".data,
   glob_segment_spec.2.2 "sub".data "path".data (by decide) (by decide) (by decide)⟩

/-- C2 counterexample for the claim as stated: `hotfix/*` does NOT match
the multi-segment branch `hotfix/sub/path` (minimatch's `*` stops at
`/`), though it does match `hotfix/1.0`. -/
theorem glob_star_counterexample :
    minimatchFn "hotfix/*".data "hotfix/sub/path".data = false ∧
    minimatchFn "hotfix/*".data "hotfix/1.0".data = true := by decide

/-! ## Sanitizer idempotence lemmas -/

/-- The configurations for which sanitization is idempotent: the
replacement (when non-empty) must not be `/` and, when lowercase folding
is on, must not itself be a lowercase letter (otherwise folding can fuse
an original uppercase letter with adjacent replacements into a new run,
which a second pass would collapse or strip). -/
def replOK (cfg : GeneralConfig) : Prop :=
  match cfg.nonAlnumReplacement with
  | none => True
  | some c => c ≠ '/' ∧ (cfg.lowercase = true → ¬ (97 ≤ c.toNat ∧ c.toNat ≤ 122))

theorem prefix_head? {l m : List Char} (h : l <+: m) (hne : l ≠ []) :
    m.head? = l.head? := by
  obtain ⟨t, rfl⟩ := h
  cases l with
  | nil => exact absurd rfl hne
  | cons a as => rfl

theorem mem_replaceDisallowed {repl : Option Char} {x : Char} :
    ∀ {s : List Char}, x ∈ replaceDisallowed repl s →
      isAllowedChar x = true ∨ repl = some x := by
  intro s
  induction s with
  | nil => intro h; simp [replaceDisallowed] at h
  | cons c cs ih =>
    intro h
    rw [replaceDisallowed] at h
    rcases List.mem_append.mp h with h | h
    · by_cases hc : isAllowedChar c
      · rw [if_pos hc] at h
        simp at h
        exact Or.inl (h ▸ hc)
      · rw [if_neg hc] at h
        cases hr : repl with
        | none => rw [hr] at h; simp [Option.toList] at h
        | some r =>
          rw [hr] at h
          simp [Option.toList] at h
          exact Or.inr (by rw [h])
    · exact ih h

theorem mem_collapseRuns {c x : Char} :
    ∀ {s : List Char}, x ∈ collapseRuns c s → x ∈ s := by
  intro s
  induction s with
  | nil => intro h; simp [collapseRuns] at h
  | cons a as ih =>
    intro h
    cases as with
    | nil => simpa [collapseRuns] using h
    | cons b bs =>
      rw [collapseRuns] at h
      by_cases hc : (a = c && b = c) = true
      · rw [if_pos hc] at h
        exact List.mem_cons_of_mem a (ih h)
      · rw [if_neg hc] at h
        rcases List.mem_cons.mp h with h | h
        · exact h ▸ List.mem_cons_self ..
        · exact List.mem_cons_of_mem a (ih h)

theorem stripClass_prefix_dropWhile (p : Char → Bool) (s : List Char) :
    stripClass p s <+: s.dropWhile p := by
  rw [stripClass]
  have h := List.reverse_prefix.mpr (List.dropWhile_suffix (l := (s.dropWhile p).reverse) p)
  rwa [List.reverse_reverse] at h

theorem stripClass_infix_self (p : Char → Bool) (s : List Char) :
    stripClass p s <:+: s :=
  (stripClass_prefix_dropWhile p s).isInfix.trans (List.dropWhile_suffix p).isInfix

theorem mem_stripClass {p : Char → Bool} {x : Char} {s : List Char}
    (h : x ∈ stripClass p s) : x ∈ s :=
  (stripClass_infix_self p s).subset h

theorem mem_sanitizeBranchSegment {repl : Option Char} {x : Char} {s : List Char}
    (h : x ∈ sanitizeBranchSegment repl s) :
    isAllowedChar x = true ∨ repl = some x := by
  simp only [sanitizeBranchSegment] at h
  have h2 := mem_stripClass h
  match repl, h2 with
  | none, h2 => exact mem_replaceDisallowed h2
  | some c, h2 => exact mem_replaceDisallowed (mem_collapseRuns h2)

theorem collapseRuns_head? (c : Char) :
    ∀ (x : Char) (xs : List Char), (collapseRuns c (x :: xs)).head? = some x := by
  intro x xs
  induction xs generalizing x with
  | nil => rfl
  | cons y ys ih =>
    rw [collapseRuns]
    by_cases hc : (x = c && y = c) = true
    · rw [if_pos hc]
      simp only [Bool.and_eq_true, decide_eq_true_eq] at hc
      rw [ih y, hc.1, hc.2]
    · rw [if_neg hc]
      rfl

theorem chain'_collapseRuns (c : Char) :
    ∀ (s : List Char), (collapseRuns c s).Chain' (fun a b => ¬(a = c ∧ b = c)) := by
  intro s
  induction s with
  | nil => exact List.chain'_nil
  | cons x xs ih =>
    cases xs with
    | nil => simp [collapseRuns]
    | cons y ys =>
      rw [collapseRuns]
      by_cases hc : (x = c && y = c) = true
      · rw [if_pos hc]
        exact ih
      · rw [if_neg hc]
        refine List.chain'_cons'.mpr ⟨?_, ih⟩
        intro b hb
        rw [collapseRuns_head? c y ys] at hb
        simp only [Option.mem_def, Option.some.injEq] at hb
        subst hb
        intro hcc
        exact hc (by simp [hcc.1, hcc.2])

theorem collapseRuns_of_chain' {c : Char} :
    ∀ {s : List Char}, s.Chain' (fun a b => ¬(a = c ∧ b = c)) →
      collapseRuns c s = s := by
  intro s
  induction s with
  | nil => intro _; rfl
  | cons x xs ih =>
    intro h
    cases xs with
    | nil => rfl
    | cons y ys =>
      obtain ⟨hxy, hrest⟩ := List.chain'_cons.mp h
      rw [collapseRuns, if_neg (by simpa using hxy), ih hrest]

theorem replaceDisallowed_of_mem {repl : Option Char} :
    ∀ {s : List Char}, (∀ x ∈ s, isAllowedChar x = true ∨ repl = some x) →
      replaceDisallowed repl s = s := by
  intro s
  induction s with
  | nil => intro _; rfl
  | cons c cs ih =>
    intro h
    rw [replaceDisallowed, ih (fun x hx => h x (List.mem_cons_of_mem c hx))]
    rcases h c (List.mem_cons_self ..) with hc | hc
    · rw [if_pos hc]
      rfl
    · by_cases ha : isAllowedChar c
      · rw [if_pos ha]
        rfl
      · rw [if_neg ha, hc]
        rfl

theorem stripClass_of_ends {p : Char → Bool} {s : List Char}
    (h1 : ∀ a ∈ s.head?, p a = false) (h2 : ∀ a ∈ s.getLast?, p a = false) :
    stripClass p s = s := by
  have hdw : s.dropWhile p = s := by
    cases s with
    | nil => rfl
    | cons a as =>
      rw [List.dropWhile_cons, if_neg (by simp [h1 a rfl])]
  rw [stripClass, hdw]
  have hdw2 : s.reverse.dropWhile p = s.reverse := by
    cases hr : s.reverse with
    | nil => rfl
    | cons a as =>
      rw [List.dropWhile_cons, if_neg ?_]
      have := List.head?_reverse s
      rw [hr] at this
      simp [h2 a this.symm]
  rw [hdw2, List.reverse_reverse]

theorem stripClass_head {p : Char → Bool} {s : List Char} :
    ∀ a ∈ (stripClass p s).head?, p a = false := by
  intro a ha
  cases hsc : stripClass p s with
  | nil => rw [hsc] at ha; simp at ha
  | cons b bs =>
    rw [hsc] at ha
    simp only [List.head?_cons, Option.mem_def, Option.some.injEq] at ha
    subst ha
    have hpre := stripClass_prefix_dropWhile p s
    rw [hsc] at hpre
    have hh := prefix_head? hpre (by simp)
    have hd := List.head?_dropWhile_not p s
    rw [hh] at hd
    simpa using hd

theorem stripClass_getLast {p : Char → Bool} {s : List Char} :
    ∀ a ∈ (stripClass p s).getLast?, p a = false := by
  intro a ha
  rw [← List.head?_reverse] at ha
  rw [stripClass, List.reverse_reverse] at ha
  have hd := List.head?_dropWhile_not p (s.dropWhile p).reverse
  cases hdw : ((s.dropWhile p).reverse.dropWhile p).head? with
  | none => rw [hdw] at ha; simp at ha
  | some b =>
    rw [hdw] at ha hd
    simp only [Option.mem_def, Option.some.injEq] at ha
    subst ha
    simpa using hd

theorem sanitizeBranchSegment_chain' (c : Char) (s : List Char) :
    (sanitizeBranchSegment (some c) s).Chain' (fun a b => ¬(a = c ∧ b = c)) :=
  List.Chain'.infix (chain'_collapseRuns c (replaceDisallowed (some c) s))
    (stripClass_infix_self (inStripClass (some c)) (collapseRuns c (replaceDisallowed (some c) s)))

theorem sanitizeBranchSegment_head (repl : Option Char) (s : List Char) :
    ∀ a ∈ (sanitizeBranchSegment repl s).head?, inStripClass repl a = false := by
  intro a ha
  exact stripClass_head a ha

theorem sanitizeBranchSegment_getLast (repl : Option Char) (s : List Char) :
    ∀ a ∈ (sanitizeBranchSegment repl s).getLast?, inStripClass repl a = false := by
  intro a ha
  exact stripClass_getLast a ha

theorem seg_fixed_of_invariants (repl : Option Char) (t : List Char)
    (hmem : ∀ x ∈ t, isAllowedChar x = true ∨ repl = some x)
    (hch : ∀ c, repl = some c → t.Chain' (fun a b => ¬(a = c ∧ b = c)))
    (hhead : ∀ a ∈ t.head?, inStripClass repl a = false)
    (hlast : ∀ a ∈ t.getLast?, inStripClass repl a = false) :
    sanitizeBranchSegment repl t = t := by
  have h1 : replaceDisallowed repl t = t := replaceDisallowed_of_mem hmem
  cases repl with
  | none =>
    show stripClass (inStripClass none) (replaceDisallowed none t) = t
    rw [h1]
    exact stripClass_of_ends hhead hlast
  | some c =>
    show stripClass (inStripClass (some c))
        (collapseRuns c (replaceDisallowed (some c) t)) = t
    rw [h1, collapseRuns_of_chain' (hch c rfl)]
    exact stripClass_of_ends hhead hlast

theorem seg_invariants {repl : Option Char} {segs : List (List Char)} {t : List Char}
    (ht : t ∈ (segs.map (sanitizeBranchSegment repl)).filter
      (fun s => decide (0 < s.length))) :
    (∀ x ∈ t, isAllowedChar x = true ∨ repl = some x) ∧
    (∀ c, repl = some c → t.Chain' (fun a b => ¬(a = c ∧ b = c))) ∧
    (∀ a ∈ t.head?, inStripClass repl a = false) ∧
    (∀ a ∈ t.getLast?, inStripClass repl a = false) ∧ 0 < t.length := by
  have h1 := List.mem_filter.mp ht
  have h2 : 0 < t.length := by simpa using h1.2
  obtain ⟨s, hs, rfl⟩ := List.mem_map.mp h1.1
  refine ⟨fun x hx => mem_sanitizeBranchSegment hx, ?_,
    sanitizeBranchSegment_head repl s, sanitizeBranchSegment_getLast repl s, h2⟩
  intro c hc
  subst hc
  exact sanitizeBranchSegment_chain' c s

theorem mapLower_mem_invariant {repl : Option Char} {t : List Char}
    (hmem : ∀ x ∈ t, isAllowedChar x = true ∨ repl = some x) :
    ∀ x ∈ mapLower t, isAllowedChar x = true ∨ repl = some x := by
  intro x hx
  rw [mapLower, List.mem_map] at hx
  obtain ⟨w, hw, rfl⟩ := hx
  rcases hmem w hw with h | h
  · exact Or.inl (isAllowedChar_lowerChar h)
  · by_cases hu : 65 ≤ w.toNat ∧ w.toNat ≤ 90
    · refine Or.inl (isAllowedChar_iff.mpr (Or.inl ?_))
      rw [toNat_lowerChar_of_upper hu]
      omega
    · rw [lowerChar_of_not_upper hu]
      exact Or.inr h

theorem chain'_mapLower {c : Char} {t : List Char}
    (hc : ¬(97 ≤ c.toNat ∧ c.toNat ≤ 122))
    (h : t.Chain' (fun a b => ¬(a = c ∧ b = c))) :
    (mapLower t).Chain' (fun a b => ¬(a = c ∧ b = c)) := by
  rw [mapLower, List.chain'_map]
  refine h.imp ?_
  intro a b hab habl
  exact hab ⟨eq_of_lowerChar_eq hc habl.1, eq_of_lowerChar_eq hc habl.2⟩

theorem inStripClass_lowerChar {repl : Option Char} {w : Char}
    (hrep : ∀ c, repl = some c → ¬(97 ≤ c.toNat ∧ c.toNat ≤ 122))
    (h : inStripClass repl w = false) : inStripClass repl (lowerChar w) = false := by
  cases repl with
  | none =>
    simp only [inStripClass, Bool.or_false, decide_eq_false_iff_not] at h ⊢
    intro he
    exact h (lowerChar_dot_iff.mp he)
  | some c =>
    simp only [inStripClass, Bool.or_eq_false_iff, decide_eq_false_iff_not] at h ⊢
    exact ⟨fun he => h.1 (lowerChar_dot_iff.mp he),
      fun he => h.2 (eq_of_lowerChar_eq (hrep c rfl) he)⟩

theorem no_slash_of_mem {repl : Option Char} {t : List Char}
    (hrep : ∀ c, repl = some c → c ≠ '/')
    (hmem : ∀ x ∈ t, isAllowedChar x = true ∨ repl = some x) :
    '/' ∉ t := by
  intro hin
  rcases hmem '/' hin with h | h
  · exact absurd h (by decide)
  · exact hrep '/' h rfl

theorem no_slash_mapLower {t : List Char} (h : '/' ∉ t) : '/' ∉ mapLower t := by
  intro hin
  rw [mapLower, List.mem_map] at hin
  obtain ⟨w, hw, hwl⟩ := hin
  exact h (lowerChar_slash_iff.mp hwl ▸ hw)

theorem splitOnSlash_joinSlash : ∀ (ts : List (List Char)), ts ≠ [] →
    (∀ t ∈ ts, '/' ∉ t) → splitOnSlash (joinSlash ts) = ts
  | [], h, _ => absurd rfl h
  | [t], _, hf => by
      rw [joinSlash, splitOnSlash_single (hf t (List.mem_cons_self ..))]
  | t :: u :: ts, _, hf => by
      show splitOnSlash (t ++ '/' :: joinSlash (u :: ts)) = t :: u :: ts
      rw [splitOnSlash_append_slash _ (hf t (List.mem_cons_self ..)),
        splitOnSlash_joinSlash (u :: ts) (by simp)
          (fun v hv => hf v (List.mem_cons_of_mem t hv))]

theorem mapLower_joinSlash : ∀ (ts : List (List Char)),
    mapLower (joinSlash ts) = joinSlash (ts.map mapLower)
  | [] => rfl
  | [t] => rfl
  | t :: u :: ts => by
      show mapLower (t ++ '/' :: joinSlash (u :: ts)) =
        mapLower t ++ '/' :: joinSlash ((u :: ts).map mapLower)
      rw [← mapLower_joinSlash (u :: ts)]
      show (t ++ '/' :: joinSlash (u :: ts)).map lowerChar =
        t.map lowerChar ++ '/' :: (joinSlash (u :: ts)).map lowerChar
      rw [List.map_append, List.map_cons, show lowerChar '/' = '/' from by decide]

theorem map_eq_self_of_fixed {f : List Char → List Char} :
    ∀ {l : List (List Char)}, (∀ t ∈ l, f t = t) → l.map f = l := by
  intro l
  induction l with
  | nil => intro _; rfl
  | cons a as ih =>
    intro h
    rw [List.map_cons, h a (List.mem_cons_self ..),
      ih (fun t ht => h t (List.mem_cons_of_mem a ht))]

theorem sanitizeCore_eq (cfg : GeneralConfig) (name : List Char) :
    sanitizeCore cfg name =
      (if cfg.lowercase then
        mapLower (joinSlash (((splitOnSlash name).map
          (sanitizeBranchSegment cfg.nonAlnumReplacement)).filter
            (fun s => decide (0 < s.length))))
      else
        joinSlash (((splitOnSlash name).map
          (sanitizeBranchSegment cfg.nonAlnumReplacement)).filter
            (fun s => decide (0 < s.length)))) := rfl

theorem sanitizeBranchSegment_nil (repl : Option Char) :
    sanitizeBranchSegment repl [] = [] := by
  cases repl <;> rfl

theorem sanitizeCore_nil (cfg : GeneralConfig) : sanitizeCore cfg [] = [] := by
  rw [sanitizeCore_eq, show splitOnSlash [] = [[]] from rfl, List.map_cons,
    List.map_nil, sanitizeBranchSegment_nil]
  cases cfg.lowercase <;> rfl

theorem replOK_spec {cfg : GeneralConfig} (h : replOK cfg) :
    ∀ c, cfg.nonAlnumReplacement = some c →
      c ≠ '/' ∧ (cfg.lowercase = true → ¬(97 ≤ c.toNat ∧ c.toNat ≤ 122)) := by
  intro c hc
  unfold replOK at h
  rw [hc] at h
  exact h

theorem assemble_fixed (cfg : GeneralConfig) (hok : replOK cfg)
    (ts : List (List Char))
    (hinv : ∀ t ∈ ts,
      (∀ x ∈ t, isAllowedChar x = true ∨ cfg.nonAlnumReplacement = some x) ∧
      (∀ c, cfg.nonAlnumReplacement = some c →
        t.Chain' (fun a b => ¬(a = c ∧ b = c))) ∧
      (∀ a ∈ t.head?, inStripClass cfg.nonAlnumReplacement a = false) ∧
      (∀ a ∈ t.getLast?, inStripClass cfg.nonAlnumReplacement a = false) ∧
      0 < t.length) :
    sanitizeCore cfg (if cfg.lowercase then mapLower (joinSlash ts) else joinSlash ts) =
      (if cfg.lowercase then mapLower (joinSlash ts) else joinSlash ts) := by
  cases ts with
  | nil =>
    have h0 : (if cfg.lowercase then mapLower (joinSlash ([] : List (List Char)))
        else joinSlash ([] : List (List Char))) = [] := by
      cases cfg.lowercase <;> rfl
    rw [h0, sanitizeCore_nil]
  | cons t0 trest =>
    have hne : t0 :: trest ≠ ([] : List (List Char)) := by simp
    have hfree : ∀ t ∈ t0 :: trest, '/' ∉ t := fun t ht =>
      no_slash_of_mem (fun c hc => (replOK_spec hok c hc).1) (hinv t ht).1
    cases hl : cfg.lowercase with
    | false =>
      simp only [hl, Bool.false_eq_true, if_false]
      rw [sanitizeCore_eq, splitOnSlash_joinSlash _ hne hfree,
        map_eq_self_of_fixed (fun t ht => seg_fixed_of_invariants _ t (hinv t ht).1
          (hinv t ht).2.1 (hinv t ht).2.2.1 (hinv t ht).2.2.2.1),
        List.filter_eq_self.mpr (fun t ht => by
          simpa using (hinv t ht).2.2.2.2)]
      simp [hl]
    | true =>
      simp only [hl, if_true]
      rw [mapLower_joinSlash]
      have hne' : (t0 :: trest).map mapLower ≠ ([] : List (List Char)) := by simp
      have hfree' : ∀ t ∈ (t0 :: trest).map mapLower, '/' ∉ t := by
        intro t ht
        obtain ⟨w, hw, rfl⟩ := List.mem_map.mp ht
        exact no_slash_mapLower (hfree w hw)
      have hrep : ∀ c, cfg.nonAlnumReplacement = some c →
          ¬(97 ≤ c.toNat ∧ c.toNat ≤ 122) :=
        fun c hc => (replOK_spec hok c hc).2 hl
      have hfix : ∀ t ∈ (t0 :: trest).map mapLower,
          sanitizeBranchSegment cfg.nonAlnumReplacement t = t := by
        intro t ht
        obtain ⟨w, hw, rfl⟩ := List.mem_map.mp ht
        obtain ⟨h1, h2, h3, h4, h5⟩ := hinv w hw
        refine seg_fixed_of_invariants _ _ (mapLower_mem_invariant h1) ?_ ?_ ?_
        · intro c hc
          exact chain'_mapLower (hrep c hc) (h2 c hc)
        · intro a ha
          rw [head?_mapLower] at ha
          cases hwh : w.head? with
          | none => rw [hwh] at ha; simp at ha
          | some b =>
            rw [hwh] at ha
            simp at ha
            subst ha
            exact inStripClass_lowerChar hrep (h3 b (by rw [hwh]; rfl))
        · intro a ha
          rw [show mapLower w = w.map lowerChar from rfl, List.getLast?_map] at ha
          cases hwl : w.getLast? with
          | none => rw [hwl] at ha; simp at ha
          | some b =>
            rw [hwl] at ha
            simp at ha
            subst ha
            exact inStripClass_lowerChar hrep (h4 b (by rw [hwl]; rfl))
      have hlen' : ∀ t ∈ (t0 :: trest).map mapLower,
          (fun s => decide (0 < List.length s)) t = true := by
        intro t ht
        obtain ⟨w, hw, rfl⟩ := List.mem_map.mp ht
        simp only [decide_eq_true_eq, length_mapLower]
        exact (hinv w hw).2.2.2.2
      rw [sanitizeCore_eq, splitOnSlash_joinSlash _ hne' hfree',
        map_eq_self_of_fixed hfix, List.filter_eq_self.mpr hlen']
      simp only [hl, if_true]
      rw [← mapLower_joinSlash]
      exact mapLower_idem (joinSlash (t0 :: trest))

theorem sanitizeCore_fixed (cfg : GeneralConfig) (x : List Char) (hok : replOK cfg) :
    sanitizeCore cfg (sanitizeCore cfg x) = sanitizeCore cfg x := by
  have h := assemble_fixed cfg hok
    (((splitOnSlash x).map (sanitizeBranchSegment cfg.nonAlnumReplacement)).filter
      (fun s => decide (0 < s.length)))
    (fun t ht => seg_invariants ht)
  rw [sanitizeCore_eq cfg x]
  exact h

/-- **C3** (corrected).  As stated in the specification — idempotence of
`sanitizeBranchName` for every input and every configuration — the claim
is false (see the counterexample below): the truncation step can cut the
name so that a strippable character (a dot or a replacement character)
becomes the final character, which only a second pass removes; a `/`
replacement or, with lowercasing on, a lowercase-letter replacement also
break idempotence.  The corrected statement: for every configuration
whose replacement is not `/` and (when lowercasing is enabled) not a
lowercase ASCII letter, and every input whose sanitized form fits within
`maxLength` (so the truncation branch is not taken), `sanitizeBranchName`
is idempotent. -/
theorem sanitize_idem_spec (cfg : GeneralConfig) (x : List Char)
    (hok : replOK cfg) (hlen : (sanitizeCore cfg x).length ≤ cfg.maxLength) :
    sanitizeBranchName cfg (sanitizeBranchName cfg x) = sanitizeBranchName cfg x := by
  have h1 : sanitizeBranchName cfg x = sanitizeCore cfg x := by
    show (if cfg.maxLength < (sanitizeCore cfg x).length
        then truncateBranchName (sanitizeCore cfg x) cfg.maxLength
        else sanitizeCore cfg x) = sanitizeCore cfg x
    rw [if_neg (by omega)]
  have h2 := sanitizeCore_fixed cfg x hok
  have h3 : sanitizeBranchName cfg (sanitizeCore cfg x) = sanitizeCore cfg x := by
    show (if cfg.maxLength < (sanitizeCore cfg (sanitizeCore cfg x)).length
        then truncateBranchName (sanitizeCore cfg (sanitizeCore cfg x)) cfg.maxLength
        else sanitizeCore cfg (sanitizeCore cfg x)) = sanitizeCore cfg x
    rw [h2, if_neg (by omega)]
  rw [h1, h3]

/-- Counterexample to C3 as stated: with `lowercase = false`, replacement
`-` and `maxLength = 4`, the input `abc.def` sanitizes to `abc.` (the
truncation cuts right after the dot, and the trailing-hyphen strip of the
truncation step does not remove dots), while a second sanitization strips
the now-trailing dot and yields `abc`. -/
theorem sanitize_idem_counterexample :
    sanitizeBranchName ⟨false, some '-', 4, true, "en".data⟩ "abc.def".data =
        "abc.".data ∧
    sanitizeBranchName ⟨false, some '-', 4, true, "en".data⟩
        (sanitizeBranchName ⟨false, some '-', 4, true, "en".data⟩ "abc.def".data) =
        "abc".data ∧
    sanitizeBranchName ⟨false, some '-', 4, true, "en".data⟩
        (sanitizeBranchName ⟨false, some '-', 4, true, "en".data⟩ "abc.def".data) ≠
      sanitizeBranchName ⟨false, some '-', 4, true, "en".data⟩ "abc.def".data := by
  refine ⟨by decide, by decide, by decide⟩

/-- The corrected C3 statement holds at a concrete configuration and
input: replacement `-`, lowercasing on, `maxLength = 80`. -/
theorem sanitize_idem_witness :
    sanitizeBranchName ⟨true, some '-', 80, true, "en".data⟩
        (sanitizeBranchName ⟨true, some '-', 80, true, "en".data⟩
          "Feature/123-Fix Login".data) =
      sanitizeBranchName ⟨true, some '-', 80, true, "en".data⟩
        "Feature/123-Fix Login".data :=
  sanitize_idem_spec ⟨true, some '-', 80, true, "en".data⟩ "Feature/123-Fix Login".data
    (by unfold replOK; decide) (by decide)

end BranchPilot
